import Mathlib

/-!
# Random variate generators

A shallow embedding of the C sources `genemp.c`, `generl.c`, `genhyp1.c`,
`genhyp2.c`, `genpar1.c`, `genunifc.c`, `genuniq.c` and `genzipf.c`: the shared
uniform source `rand_val`, the Zipf sampler, the empirical table, the
unique-integer generator with its shuffle, and the inversion transforms.

* C `long` / `int` values are modelled as `Int` (the never-negative static of
  `Generator31` as `Nat`); the file-scope `static` variables are passed and
  returned explicitly.
* C `double` values are modelled exactly, as elements of an arbitrary linearly
  ordered field `K` (`ℚ` for evaluation, `ℝ` where `pow`, `log` or `sqrt` is
  involved; these library functions are parameters of the definitions).
  Rounding of floating point numbers is not modelled, except in the table
  build of `genemp.c`, whose check compares a sum of doubles with `1.0`: there
  the addition of doubles is also given as a parameter (`emp_build_add`).
* Loops that need not end (`do ... while`) carry a bound on their iterations.
-/

namespace RandomDistribution

/-! ## Definitions -/

/-! ### `rand_val` : Jain's multiplicative LCG -/

/-- The function `rand_val(int seed)` (identical in `genemp.c`, `generl.c`,
`genpar1.c`, `genhyp1.c`, `genhyp2.c`, `genipp.c`, and in `genzipf.c` up to the
type of `seed`).  The argument `x` is the value of the `static long x` on entry;
the result is the value of `x` on exit together with the returned `double`.
C integer division and remainder truncate toward zero. -/
def rand_val (K : Type) [LinearOrderedField K] (seed : Int) (x : Int) : Int × K :=
  let a : Int := 16807
  let m : Int := 2147483647
  let q : Int := 127773
  let r : Int := 2836
  if seed > 0 then
    (seed, 0)
  else
    let x_div_q := Int.tdiv x q
    let x_mod_q := Int.tmod x q
    let x_new := (a * x_mod_q) - (r * x_div_q)
    let x1 := if x_new > 0 then x_new else x_new + m
    (x1, (x1 : K) / (m : K))

/-- The state update as the specification words it (Lehmer / Park-Miller):
`x_n = 7^5 * x_(n-1) mod (2^31 - 1)`. -/
def lehmer_spec (x : Int) : Int := (16807 * x) % (2 ^ 31 - 1)

/-- The calls `rand_val(0)` repeated `n` times from state `x`: the final state
and the list of returned values, in call order. -/
def draws (K : Type) [LinearOrderedField K] : Nat → Int → Int × List K
  | 0, x => (x, [])
  | n + 1, x =>
    let p := rand_val K 0 x
    let rest := draws K n p.1
    (rest.1, p.2 :: rest.2)

/-! ### `zipf` : table build, uniform draw and binary search (`genzipf.c`) -/

/-- The `static` variables read and written by `zipf`: its own `first`, `c`
and `sum_probs` (the contents of the allocated array, by index) and the
`static long x` of `rand_val`. -/
structure ZipfState (K : Type) where
  first : Bool
  c : K
  sum_probs : Nat → K
  x : Int

/-- The values of the statics at program start, after the seeding call of
`main` has left `x0` in `rand_val`: `first = TRUE`, `c = 0`, no table. -/
def zipf_init (K : Type) [LinearOrderedField K] (x0 : Int) : ZipfState K :=
  { first := true, c := 0, sum_probs := fun _ => 0, x := x0 }

/-- The first loop and the assignment after it:
`for (i = 1; i <= n; i++) c = c + (1.0 / pow((double) i, alpha)); c = 1.0 / c;`
started with the value `c0` of the static `c`.  The parameter `pow` is the
library function `pow`. -/
def zipf_norm {K : Type} [LinearOrderedField K] (pow : K → K → K) (alpha : K) (n : Nat)
    (c0 : K) : K :=
  1 / (List.range' 1 n).foldl (fun (c : K) (i : Nat) => c + 1 / pow (i : K) alpha) c0

/-- The table fill:
`sum_probs[0] = 0; for (i = 1; i <= n; i++) sum_probs[i] = sum_probs[i-1] + c / pow((double) i, alpha);`
acting on the array contents `sp`. -/
def zipf_fill {K : Type} [LinearOrderedField K] (pow : K → K → K) (alpha : K) (n : Nat)
    (c : K) (sp : Nat → K) : Nat → K :=
  (List.range' 1 n).foldl
    (fun (t : Nat → K) (i : Nat) => Function.update t i (t (i - 1) + c / pow (i : K) alpha))
    (Function.update sp 0 0)

/-- The block guarded by `if (first == TRUE)`: on the first call the constant
and the table are computed and `first` is cleared; later calls leave the
statics as they are. -/
def zipf_build {K : Type} [LinearOrderedField K] (pow : K → K → K) (alpha : K) (n : Nat)
    (st : ZipfState K) : ZipfState K :=
  if st.first = true then
    let c := zipf_norm pow alpha n st.c
    { first := false, c := c, sum_probs := zipf_fill pow alpha n c st.sum_probs, x := st.x }
  else st

/-- The rejection loop `do { z = rand_val(0); } while ((z == 0) || (z == 1));`
run for at most `fuel` iterations: the state of `rand_val` and the accepted
`z`, or `none` when the fuel is used up. -/
def draw_open (K : Type) [LinearOrderedField K] : Nat → Int → Option (Int × K)
  | 0, _ => none
  | fuel + 1, x =>
    let p := rand_val K 0 x
    if p.2 = 0 ∨ p.2 = 1 then draw_open K fuel p.1 else some p

/-- How the binary-search loop of `zipf` ends. -/
inductive SearchResult where
  /-- The `break` branch was taken with `zipf_value = mid`. -/
  | found (zipf_value : Nat)
  /-- The loop condition `low <= high` failed; `zipf_value` was never assigned. -/
  | unassigned
  /-- The loop was still running when the fuel was used up. -/
  | outOfFuel
  deriving DecidableEq, Repr

/-- The loop
`do { mid = floor((low + high) / 2); if (...) { zipf_value = mid; break; } else if (...) high = mid - 1; else low = mid + 1; } while (low <= high);`
for at most `fuel` iterations.  `low`, `high` and `mid` are `uint64_t`: sums and
differences are taken modulo `2^64`; `floor` of the integer quotient is the
quotient itself.  The right operand of `&&` is only read when the left one
holds. -/
def zipf_search {K : Type} [LinearOrderedField K] (sum_probs : Nat → K) (z : K) :
    Nat → Nat → Nat → SearchResult
  | 0, _, _ => SearchResult.outOfFuel
  | fuel + 1, low, high =>
    let mid := ((low + high) % 2 ^ 64) / 2
    if sum_probs mid ≥ z ∧ sum_probs ((mid + (2 ^ 64 - 1)) % 2 ^ 64) < z then
      SearchResult.found mid
    else if sum_probs mid ≥ z then
      let high1 := (mid + (2 ^ 64 - 1)) % 2 ^ 64
      if low ≤ high1 then zipf_search sum_probs z fuel low high1 else SearchResult.unassigned
    else
      let low1 := (mid + 1) % 2 ^ 64
      if low1 ≤ high then zipf_search sum_probs z fuel low1 high else SearchResult.unassigned

/-- The ways a call of `zipf` can fail to return a value. -/
inductive ZipfFailure where
  /-- A loop did not finish within the fuel. -/
  | outOfFuel
  /-- The search loop ended without assigning `zipf_value`. -/
  | unassignedValue
  /-- The `assert((zipf_value >= 1) && (zipf_value <= n))` failed. -/
  | assertFailed
  deriving DecidableEq, Repr

/-- The function `zipf(alpha, n)`: build on the first call, draw `z`, search
with `low = 1, high = n`, assert, return.  Each loop is given `fuel`
iterations.  The result is the returned value and the statics on exit. -/
def zipf {K : Type} [LinearOrderedField K] (pow : K → K → K) (fuel : Nat) (alpha : K) (n : Nat)
    (st : ZipfState K) : Except ZipfFailure (Nat × ZipfState K) :=
  let st1 := zipf_build pow alpha n st
  match draw_open K fuel st1.x with
  | none => Except.error ZipfFailure.outOfFuel
  | some (x1, z) =>
    match zipf_search st1.sum_probs z fuel 1 n with
    | SearchResult.outOfFuel => Except.error ZipfFailure.outOfFuel
    | SearchResult.unassigned => Except.error ZipfFailure.unassignedValue
    | SearchResult.found zipf_value =>
      if zipf_value ≥ 1 ∧ zipf_value ≤ n then
        Except.ok (zipf_value, { st1 with x := x1 })
      else Except.error ZipfFailure.assertFailed

/-- The generating loop of `main`:
`for (i = 0; i < num_values; i++) zipf_rv = zipf(alpha, n);`
collecting the values in call order. -/
def zipf_main {K : Type} [LinearOrderedField K] (pow : K → K → K) (fuel : Nat) (alpha : K)
    (n : Nat) : Nat → ZipfState K → Except ZipfFailure (List Nat × ZipfState K)
  | 0, st => Except.ok ([], st)
  | num_values + 1, st =>
    match zipf pow fuel alpha n st with
    | Except.error e => Except.error e
    | Except.ok (v, st1) =>
      match zipf_main pow fuel alpha n num_values st1 with
      | Except.error e => Except.error e
      | Except.ok (vs, st2) => Except.ok (v :: vs, st2)

/-- The value a call of `zipf` hands back to `main`, when the call returns. -/
def zipf_value_of {K : Type} : Except ZipfFailure (Nat × ZipfState K) → Option Nat
  | Except.ok (v, _) => some v
  | Except.error _ => none

/-! ### Auxiliary: exact harmonic sums -/

/-- Numerator of the harmonic sum over the denominator `i!`:
`1/1 + 1/2 + ... + 1/i = harmonic_num i / i!`.  Used to compare entries of the
Zipf table for `alpha = 1` with uniform draws in integer arithmetic. -/
def harmonic_num : Nat → Nat
  | 0 => 0
  | i + 1 => harmonic_num i * (i + 1) + Nat.factorial i

/-- The integer form of `S[v-1] < x/m ≤ S[v]` for the table
`S[i] = (1/1 + ... + 1/i) / (1/1 + ... + 1/1000)` and `m = 2^31 - 1`. -/
def harmonic_bracket (v x : Nat) : Prop :=
  harmonic_num (v - 1) * Nat.factorial 1000 * 2147483647 <
      x * (Nat.factorial (v - 1) * harmonic_num 1000) ∧
    x * (Nat.factorial v * harmonic_num 1000) ≤
      harmonic_num v * Nat.factorial 1000 * 2147483647

instance harmonic_bracket_decidable (v x : Nat) : Decidable (harmonic_bracket v x) := by
  unfold harmonic_bracket
  infer_instance

/-! ### `genemp.c` : the empirical table and `emp` -/

/-- The `struct rv` of `genemp.c`: one entry of the empirical CDF. -/
structure rv (K : Type) where
  cdf_val : K
  rv_val : K

/-- The constant `MAX_ENTRY`, the number of entries of the global array `CDF`. -/
def MAX_ENTRY : Nat := 1000

/-- The globals of `genemp.c` (`CDF`, by index, and `Num_entries`) together with
the `static long x` of `rand_val`. -/
structure EmpState (K : Type) where
  CDF : Nat → rv K
  Num_entries : Nat
  x : Int

/-- The ways `main` of `genemp.c` stops before sampling. -/
inductive EmpFailure where
  /-- A store `CDF[Num_entries]` with `Num_entries ≥ MAX_ENTRY`, outside the
  array: the behaviour of the program is undefined from there on. -/
  | arrayOverflow
  /-- The check `CDF[Num_entries].cdf_val != 1.0` printed its error and called
  `exit(1)`. -/
  | sumNotOne
  deriving DecidableEq, Repr

/-- One pass of the body of `while (!feof(fp_dist))` for the input line
`probability value`:
`Num_entries++; CDF[Num_entries].cdf_val = atof(instring1) + CDF[Num_entries-1].cdf_val; CDF[Num_entries].rv_val = atof(instring2);` -/
def emp_build_step {K : Type} [LinearOrderedField K] (acc : Option ((Nat → rv K) × Nat))
    (line : K × K) : Option ((Nat → rv K) × Nat) :=
  match acc with
  | none => none
  | some (CDF, Num_entries) =>
    if Num_entries + 1 < MAX_ENTRY then
      some (Function.update CDF (Num_entries + 1)
          { cdf_val := line.1 + (CDF (Num_entries + 1 - 1)).cdf_val, rv_val := line.2 },
        Num_entries + 1)
    else none

/-- The block "Build the CDF from the distribution file" of `main`: the first
line of `dist.dat` is stored at index 0, every further line by the loop.  The
file is given as its parsed lines `first :: rest`; the result is `none` when a
store falls outside `CDF[MAX_ENTRY]`. -/
def emp_build {K : Type} [LinearOrderedField K] (CDF0 : Nat → rv K) (first : K × K)
    (rest : List (K × K)) : Option ((Nat → rv K) × Nat) :=
  rest.foldl emp_build_step
    (some (Function.update CDF0 0 { cdf_val := first.1, rv_val := first.2 }, 0))

/-- The build followed by the check
`if (CDF[Num_entries].cdf_val != 1.0) { printf("ERROR ..."); exit(1); }`. -/
def emp_load {K : Type} [LinearOrderedField K] (CDF0 : Nat → rv K) (first : K × K)
    (rest : List (K × K)) : Except EmpFailure ((Nat → rv K) × Nat) :=
  match emp_build CDF0 first rest with
  | none => Except.error EmpFailure.arrayOverflow
  | some (CDF, Num_entries) =>
    if (CDF Num_entries).cdf_val ≠ 1 then Except.error EmpFailure.sumNotOne
    else Except.ok (CDF, Num_entries)

/-- The loop of `emp`:
`for (i=0; i<=Num_entries; i++) if (z <= CDF[i].cdf_val) { emp_value = CDF[i].rv_val; break; }`
with `count` iterations left, at index `i`.  The result is `none` when the loop
ends without assigning `emp_value`. -/
def emp_scan {K : Type} [LinearOrderedField K] (CDF : Nat → rv K) (z : K) : Nat → Nat → Option K
  | 0, _ => none
  | count + 1, i =>
    if z ≤ (CDF i).cdf_val then some (CDF i).rv_val else emp_scan CDF z count (i + 1)

/-- The function `emp()`: one draw `z = rand_val(0)` and the scan of
`CDF[0..Num_entries]`.  The result is `emp_value` (`none` when it was never
assigned) and the globals on exit. -/
def emp {K : Type} [LinearOrderedField K] (st : EmpState K) : Option K × EmpState K :=
  let p := rand_val K 0 st.x
  (emp_scan st.CDF p.2 (st.Num_entries + 1) 0, { st with x := p.1 })

/-- The sampling loop of `main`:
`for (i=0; i<num_samples; i++) emp_rv = emp();` collecting the values in call
order. -/
def emp_samples {K : Type} [LinearOrderedField K] : Nat → EmpState K → List (Option K)
  | 0, _ => []
  | num_samples + 1, st => (emp st).1 :: emp_samples num_samples (emp st).2

/-- The run of `main` of `genemp.c` on the parsed lines of `dist.dat`, the seed
and the number of samples: build, check, `rand_val(seed)`, sampling loop.  The
result is the list of values written to the output file. -/
def emp_main {K : Type} [LinearOrderedField K] (CDF0 : Nat → rv K) (x0 : Int) (first : K × K)
    (rest : List (K × K)) (seed : Int) (num_samples : Nat) :
    Except EmpFailure (List (Option K)) :=
  match emp_load CDF0 first rest with
  | Except.error e => Except.error e
  | Except.ok (CDF, Num_entries) =>
    Except.ok (emp_samples num_samples
      { CDF := CDF, Num_entries := Num_entries, x := (rand_val K seed x0).1 })

/-- The cumulative values `CDF[0].cdf_val, ..., CDF[Num_entries].cdf_val`. -/
def emp_cdf_list {K : Type} (CDF : Nat → rv K) (Num_entries : Nat) : List K :=
  (List.range (Num_entries + 1)).map (fun i => (CDF i).cdf_val)

/-! ### `genemp.c` : the build and the check with the addition of doubles as a parameter -/

/-- The pass of the body of `while (!feof(fp_dist))` as in `emp_build_step`,
with the `+` of `atof(instring1) + CDF[Num_entries-1].cdf_val` computed by the
parameter `add`: the addition of doubles as the machine rounds it, or the exact
one. -/
def emp_build_step_add {K : Type} [LinearOrderedField K] (add : K → K → K)
    (acc : Option ((Nat → rv K) × Nat)) (line : K × K) : Option ((Nat → rv K) × Nat) :=
  match acc with
  | none => none
  | some (CDF, Num_entries) =>
    if Num_entries + 1 < MAX_ENTRY then
      some (Function.update CDF (Num_entries + 1)
          { cdf_val := add line.1 (CDF (Num_entries + 1 - 1)).cdf_val, rv_val := line.2 },
        Num_entries + 1)
    else none

/-- The block "Build the CDF from the distribution file" of `main` as in
`emp_build`, with the addition of doubles `add`. -/
def emp_build_add {K : Type} [LinearOrderedField K] (add : K → K → K) (CDF0 : Nat → rv K)
    (first : K × K) (rest : List (K × K)) : Option ((Nat → rv K) × Nat) :=
  rest.foldl (emp_build_step_add add)
    (some (Function.update CDF0 0 { cdf_val := first.1, rv_val := first.2 }, 0))

/-- The build with the addition of doubles `add`, followed by the check
`if (CDF[Num_entries].cdf_val != 1.0) { printf("ERROR ..."); exit(1); }`. -/
def emp_load_add {K : Type} [LinearOrderedField K] (add : K → K → K) (CDF0 : Nat → rv K)
    (first : K × K) (rest : List (K × K)) : Except EmpFailure ((Nat → rv K) × Nat) :=
  match emp_build_add add CDF0 first rest with
  | none => Except.error EmpFailure.arrayOverflow
  | some (CDF, Num_entries) =>
    if (CDF Num_entries).cdf_val ≠ 1 then Except.error EmpFailure.sumNotOne
    else Except.ok (CDF, Num_entries)

/-- The run of `main` of `genemp.c` as in `emp_main`, with the addition of
doubles `add` in the build. -/
def emp_main_add {K : Type} [LinearOrderedField K] (add : K → K → K) (CDF0 : Nat → rv K)
    (x0 : Int) (first : K × K) (rest : List (K × K)) (seed : Int) (num_samples : Nat) :
    Except EmpFailure (List (Option K)) :=
  match emp_load_add add CDF0 first rest with
  | Except.error e => Except.error e
  | Except.ok (CDF, Num_entries) =>
    Except.ok (emp_samples num_samples
      { CDF := CDF, Num_entries := Num_entries, x := (rand_val K seed x0).1 })

/-! ### Auxiliary: the sum of two doubles in `[1/2, 1]` -/

/-- The integer nearest to `q`, the even one of the two when `q` lies half way
between them. -/
def round_half_even (q : ℚ) : Int :=
  if q - Int.floor q < 1 / 2 then Int.floor q
  else if 1 / 2 < q - Int.floor q then Int.floor q + 1
  else if Int.floor q % 2 = 0 then Int.floor q else Int.floor q + 1

/-- The multiple of `2^-53` nearest to `a + b`, ties to the even multiple: for
doubles `a`, `b` with `1/2 ≤ a + b ≤ 1` this is the double that IEEE 754
addition (round to nearest, ties to even) gives for `a + b`. -/
def double_sum (a b : ℚ) : ℚ := (round_half_even ((a + b) * 2 ^ 53) : ℚ) / 2 ^ 53

/-! ### `genuniq.c` : `Generator31`, `randInt` and the shuffle -/

/-- The function `Generator31()`:
`n = n >> 1 | ((n^n >> 3) & 1) << 30; return n;`
with the C precedences (`>>`, `<<` bind tighter than `&`, then `^`, then `|`).
The argument is the `static int n` on entry, the result is `n` on exit and
the returned value.  The static starts at 1 and the result has bit 31 clear,
so `n` is never negative and is modelled as a natural number. -/
def Generator31 (n : Nat) : Nat × Nat :=
  let n1 := n >>> 1 ||| ((n ^^^ n >>> 3) &&& 1) <<< 30
  (n1, n1)

/-- The static `n` after `k` calls of `Generator31()` from the state `n`; for
`k ≥ 1` this is also the value returned by the `k`-th call. -/
def Generator31_run : Nat → Nat → Nat
  | 0, n => n
  | k + 1, n => Generator31_run k (Generator31 n).1

/-- The fill loop of `main`: `for (i=0; i<num; i++) z[i] = Generator31();`
from the state `n`: the array `z[0..num-1]` and the state on exit. -/
def genuniq_fill : Nat → Nat → List Int × Nat
  | 0, n => ([], n)
  | num + 1, n =>
    let p := Generator31 n
    let r := genuniq_fill num p.1
    ((p.2 : Int) :: r.1, r.2)

/-- The function `randInt(int seed)` of `genuniq.c`: unlike `rand_val`, the
seeding call goes on to the generator step.  The argument `x` is the
`static long x` on entry; the result is `x` on exit and the returned `int`. -/
def randInt (seed : Int) (x : Int) : Int × Int :=
  let a : Int := 16807
  let m : Int := 2147483647
  let q : Int := 127773
  let r : Int := 2836
  let x0 := if seed > 0 then seed else x
  let x_div_q := Int.tdiv x0 q
  let x_mod_q := Int.tmod x0 q
  let x_new := (a * x_mod_q) - (r * x_div_q)
  let x1 := if x_new > 0 then x_new else x_new + m
  (x1, x1)

/-- The exchange `temp = z[i]; z[i] = z[j]; z[j] = temp;`. -/
def shuffle_swap (z : List Int) (i j : Nat) : List Int :=
  (z.set i (z.getD j 0)).set j (z.getD i 0)

/-- The shuffle loop of `main`:
`for (i=0; i<num; i++) { j = randInt(0) % num; temp = z[i]; z[i] = z[j]; z[j] = temp; }`
with `num` the length of `z`, `count` iterations left at index `i`, and `x` the
static of `randInt`.  C `%` truncates toward zero; the result is `none` when an
index `j` falls outside the array. -/
def genuniq_shuffle : Nat → Nat → List Int → Int → Option (List Int × Int)
  | 0, _, z, x => some (z, x)
  | count + 1, i, z, x =>
    let p := randInt 0 x
    let j := Int.tmod p.2 (z.length : Int)
    if 0 ≤ j ∧ j < (z.length : Int) then
      genuniq_shuffle count (i + 1) (shuffle_swap z i j.toNat) p.1
    else none

/-! ### Auxiliary: maps on 31-bit values that respect `xor` -/

/-- A map on 31-bit values that keeps them 31-bit and respects `xor`. -/
def XorLinear31 (g : Nat → Nat) : Prop :=
  (∀ a, a < 2 ^ 31 → g a < 2 ^ 31) ∧
    ∀ a b, a < 2 ^ 31 → b < 2 ^ 31 → g (a ^^^ b) = g a ^^^ g b

/-- The value at `v` of the `xor`-respecting map whose values at
`2^0, ..., 2^30` are the entries of `B`. -/
def xor_apply (B : List Nat) (v : Nat) : Nat :=
  (List.range 31).foldl (fun (acc i : Nat) => if v.testBit i then acc ^^^ B.getD i 0 else acc) 0

/-- The values of `g` at `2^0, ..., 2^30`. -/
def basis_images (g : Nat → Nat) : List Nat := (List.range 31).map (fun i => g (2 ^ i))

/-- From the basis images of `g` to those of `Generator31 ∘ g ∘ g`. -/
def Generator31_double (B : List Nat) : List Nat :=
  B.map (fun c => (Generator31 (xor_apply B c)).1)

/-- The doubling step applied `k` times. -/
def Generator31_double_iter : Nat → List Nat → List Nat
  | 0, B => B
  | k + 1, B => Generator31_double_iter k (Generator31_double B)

/-! ### `genuniq.c` : the run of `main` -/

/-- The ways `main` of `genuniq.c` stops without writing the values. -/
inductive GenuniqFailure where
  /-- `malloc` returned `NULL`: the message "could not malloc space for array"
  and `exit(1)`. -/
  | mallocFailed
  /-- The shuffle read or wrote `z[j]` outside the array. -/
  | indexOutside
  deriving DecidableEq, Repr

/-- The static `x` of `randInt` after `k` calls `randInt(0)` from the state `x`. -/
def randInt_run : Nat → Int → Int
  | 0, x => x
  | k + 1, x => randInt_run k (randInt 0 x).1

/-- The index drawn by `j = randInt(0) % num;` in the state `x` of `randInt`. -/
def genuniq_shuffle_index (num : Nat) (x : Int) : Int :=
  Int.tmod (randInt 0 x).2 (num : Int)

/-- The run of `main` of `genuniq.c` for the seed and the count typed in:
`randInt(seed)`, `z = malloc(num * sizeof(int))` with the error exit when the
result is `NULL`, the fill loop, the shuffle loop; the result is the list of
values written to the file.  `malloc_null bytes` tells whether `malloc` returns
`NULL` for that request (the request is `num * 4` as a 64-bit `size_t`);
`x0` and `n0` are the statics of `randInt` and `Generator31` at program start.
Both loops run `num` times when `num > 0` and not at all otherwise. -/
def genuniq_main (malloc_null : Nat → Bool) (seed num : Int) (x0 : Int) (n0 : Nat) :
    Except GenuniqFailure (List Int) :=
  let x1 := (randInt seed x0).1
  if malloc_null ((num * 4) % 2 ^ 64).toNat = true then
    Except.error GenuniqFailure.mallocFailed
  else
    let z := (genuniq_fill num.toNat n0).1
    match genuniq_shuffle num.toNat 0 z x1 with
    | none => Except.error GenuniqFailure.indexOutside
    | some (z1, _) => Except.ok z1

/-! ### `generl.c`, `genhyp2.c`, `genpar1.c`, `genunifc.c` : the transforms -/

/-- The function `expon(x)` of `generl.c`: the rejection loop, then
`exp_value = -x * log(z)`.  The parameter `log` is the library function; the
result is the state of `rand_val` on exit and the returned value, or `none`
when the loop is still running after `fuel` iterations. -/
def expon {K : Type} [LinearOrderedField K] (log : K → K) (fuel : Nat) (x : K) (st : Int) :
    Option (Int × K) :=
  match draw_open K fuel st with
  | none => none
  | some (st1, z) => some (st1, -x * log z)

/-- The inner loop of `main` of `generl.c`:
`for (j=0; j<num_stages; j++) { exp_rv = expon(1.0 / lambda[j]); erl_rv = erl_rv + exp_rv; }`
with `count` iterations left at index `j`. -/
def erlang_sum {K : Type} [LinearOrderedField K] (log : K → K) (fuel : Nat) (lambda : Nat → K) :
    Nat → Nat → K → Int → Option (Int × K)
  | 0, _, erl_rv, st => some (st, erl_rv)
  | count + 1, j, erl_rv, st =>
    match expon log fuel (1.0 / lambda j) st with
    | none => none
    | some (st1, exp_rv) => erlang_sum log fuel lambda count (j + 1) (erl_rv + exp_rv) st1

/-- One Erlang value of `generl.c`: `erl_rv = 0.0` and the inner loop over the
`num_stages` stages, every stage with the rate `lambda[0]` typed in. -/
def generl_value {K : Type} [LinearOrderedField K] (log : K → K) (fuel : Nat) (num_stages : Nat)
    (lambda0 : K) (st : Int) : Option (Int × K) :=
  erlang_sum log fuel (fun _ => lambda0) num_stages 0 0.0 st

/-- The probability of Morse's method in `hyper`:
`temp = cov*cov; p = 0.5 * (1.0 - sqrt((temp - 1.0) / (temp + 1.0)));`. -/
def hyper_p {K : Type} [LinearOrderedField K] (sqrt : K → K) (cov : K) : K :=
  0.5 * (1.0 - sqrt ((cov * cov - 1.0) / (cov * cov + 1.0)))

/-- The branch of `hyper`: `if (z1 > p) temp = x / (1.0 - p); else temp = x / p;`. -/
def hyper_temp {K : Type} [LinearOrderedField K] (sqrt : K → K) (x cov z1 : K) : K :=
  if z1 > hyper_p sqrt cov then x / (1.0 - hyper_p sqrt cov) else x / hyper_p sqrt cov

/-- The function `hyper(x, cov)` of `genhyp2.c`: two rejection loops for `z1`
and `z2`, then `hyp_value = -0.5 * temp * log(z2)`. -/
def hyper {K : Type} [LinearOrderedField K] (sqrt log : K → K) (fuel : Nat) (x cov : K)
    (st : Int) : Option (Int × K) :=
  match draw_open K fuel st with
  | none => none
  | some (st1, z1) =>
    match draw_open K fuel st1 with
    | none => none
    | some (st2, z2) => some (st2, -0.5 * hyper_temp sqrt x cov z1 * log z2)

/-- The inversion step of `pareto`: `rv = k / pow(z, (1.0 / a));`. -/
def pareto_rv {K : Type} [LinearOrderedField K] (pow : K → K → K) (a k z : K) : K :=
  k / pow z (1.0 / a)

/-- The function `pareto(a, k)` of `genpar1.c`: the rejection loop, then the
inversion step. -/
def pareto {K : Type} [LinearOrderedField K] (pow : K → K → K) (fuel : Nat) (a k : K)
    (st : Int) : Option (Int × K) :=
  match draw_open K fuel st with
  | none => none
  | some (st1, z) => some (st1, pareto_rv pow a k z)

/-- The function `rand_valc(int seed)` of `genunifc.c`, the same code as
`rand_val` under another name. -/
def rand_valc (K : Type) [LinearOrderedField K] (seed : Int) (x : Int) : Int × K :=
  let a : Int := 16807
  let m : Int := 2147483647
  let q : Int := 127773
  let r : Int := 2836
  if seed > 0 then
    (seed, 0)
  else
    let x_div_q := Int.tdiv x q
    let x_mod_q := Int.tmod x q
    let x_new := (a * x_mod_q) - (r * x_div_q)
    let x1 := if x_new > 0 then x_new else x_new + m
    (x1, (x1 : K) / (m : K))

/-- The function `unifc(min, max)`: `z = rand_valc(0); unif_value = z * (max - min) + min;`
(no rejection loop).  The result is the state on exit and the returned value. -/
def unifc (K : Type) [LinearOrderedField K] (min max : K) (x : Int) : Int × K :=
  let p := rand_valc K 0 x
  (p.1, p.2 * (max - min) + min)

/-- The generating loop of `main` of `genunifc.c`:
`for (i = 0; i < num_values; i++) unif_rv = unifc(min, max);` -/
def unifc_samples (K : Type) [LinearOrderedField K] (min max : K) : Nat → Int → List K
  | 0, _ => []
  | num_values + 1, x => (unifc K min max x).2 :: unifc_samples K min max num_values (unifc K min max x).1

/-- The decimal with six digits after the point nearest to `v` (what
`fprintf(fp, "%f \n", v)` writes), ties upward. -/
def round6 (v : ℚ) : ℚ := (Int.floor (v * 1000000 + 1 / 2) : ℚ) / 1000000

/-! ### `rand_val` with a 32-bit `long` -/

/-- Reduction of an integer to the range of a 32-bit two's complement `long`. -/
def wrap32 (v : Int) : Int := (v + 2 ^ 31) % 2 ^ 32 - 2 ^ 31

/-- The values computed by one draw `rand_val(0)` from the state `x`:
`a * x_mod_q`, `r * x_div_q`, `x_new`, and the value stored in `x`. -/
def rand_val_intermediates (x : Int) : List Int :=
  let a : Int := 16807
  let m : Int := 2147483647
  let q : Int := 127773
  let r : Int := 2836
  let x_div_q := Int.tdiv x q
  let x_mod_q := Int.tmod x q
  let x_new := (a * x_mod_q) - (r * x_div_q)
  [a * x_mod_q, r * x_div_q, x_new, if x_new > 0 then x_new else x_new + m]

/-- The function `rand_val` with every arithmetic result reduced to 32 bits, as
on a platform whose `long` has 32 bits. -/
def rand_val_long32 (K : Type) [LinearOrderedField K] (seed : Int) (x : Int) : Int × K :=
  let a : Int := 16807
  let m : Int := 2147483647
  let q : Int := 127773
  let r : Int := 2836
  if seed > 0 then
    (seed, 0)
  else
    let x_div_q := wrap32 (Int.tdiv x q)
    let x_mod_q := wrap32 (Int.tmod x q)
    let x_new := wrap32 (wrap32 (a * x_mod_q) - wrap32 (r * x_div_q))
    let x1 := if x_new > 0 then x_new else wrap32 (x_new + m)
    (x1, (x1 : K) / (m : K))

/-! ## Lemmas on `rand_val` -/

theorem rand_val_seed_pos (K : Type) [LinearOrderedField K] (s x : Int) (hs : 0 < s) :
    rand_val K s x = (s, 0) := by
  simp [rand_val, hs]

theorem rand_val_nonpos_eq (K : Type) [LinearOrderedField K] (s x : Int) (hs : s ≤ 0) :
    rand_val K s x = rand_val K 0 x := by
  simp [rand_val, not_lt.mpr hs]

theorem rand_val_draw_value (K : Type) [LinearOrderedField K] (x : Int) :
    (rand_val K 0 x).2 = ((rand_val K 0 x).1 : K) / 2147483647 := by
  simp [rand_val]

theorem rand_val_draw_state (K : Type) [LinearOrderedField K] (x : Int) (hx : 0 ≤ x) :
    (rand_val K 0 x).1 =
      if 16807 * (x % 127773) - 2836 * (x / 127773) > 0
      then 16807 * (x % 127773) - 2836 * (x / 127773)
      else 16807 * (x % 127773) - 2836 * (x / 127773) + 2147483647 := by
  have h1 : Int.tdiv x 127773 = x / 127773 := Int.tdiv_eq_ediv hx (by norm_num)
  have h2 : Int.tmod x 127773 = x % 127773 := Int.tmod_eq_emod hx (by norm_num)
  simp only [rand_val, lt_irrefl, if_false, h1, h2]

/-- A value `v` in `[0, m)` that differs from `y` by a multiple of `m` is `y % m`. -/
theorem emod_eq_of_eq_add_mul (y v m k : Int) (h : y = v + m * k) (h0 : 0 ≤ v) (h1 : v < m) :
    y % m = v := by
  rw [h, Int.add_mul_emod_self_left]
  exact Int.emod_eq_of_lt h0 h1

theorem rand_val_step_eq (K : Type) [LinearOrderedField K] (x : Int)
    (h1 : 1 ≤ x) (h2 : x ≤ 2147483646) :
    (rand_val K 0 x).1 = (16807 * x) % 2147483647 := by
  rw [rand_val_draw_state K x (by omega)]
  split_ifs with h
  · exact (emod_eq_of_eq_add_mul _ _ _ (x / 127773) (by omega) (by omega) (by omega)).symm
  · exact (emod_eq_of_eq_add_mul _ _ _ (x / 127773 - 1) (by omega) (by omega) (by omega)).symm

/-- One draw keeps the state inside `[1, m - 1]`. -/
theorem rand_val_step_range (K : Type) [LinearOrderedField K] (x : Int)
    (h1 : 1 ≤ x) (h2 : x ≤ 2147483646) :
    1 ≤ (rand_val K 0 x).1 ∧ (rand_val K 0 x).1 ≤ 2147483646 := by
  rw [rand_val_draw_state K x (by omega)]
  split_ifs with h <;> constructor <;> omega

/-- One draw keeps the state inside `[1, m]`; `m` itself is a fixed point. -/
theorem rand_val_step_range_closed (K : Type) [LinearOrderedField K] (x : Int)
    (h1 : 1 ≤ x) (h2 : x ≤ 2147483647) :
    1 ≤ (rand_val K 0 x).1 ∧ (rand_val K 0 x).1 ≤ 2147483647 := by
  rw [rand_val_draw_state K x (by omega)]
  split_ifs with h <;> constructor <;> omega

/-- The value returned by a draw from a state in `[1, m - 1]` is in `(0, 1)`. -/
theorem rand_val_value_open (K : Type) [LinearOrderedField K] (x : Int)
    (h1 : 1 ≤ x) (h2 : x ≤ 2147483646) :
    0 < (rand_val K 0 x).2 ∧ (rand_val K 0 x).2 < 1 := by
  obtain ⟨ha, hb⟩ := rand_val_step_range K x h1 h2
  rw [rand_val_draw_value]
  have ha' : (0 : K) < ((rand_val K 0 x).1 : K) := by exact_mod_cast (by omega : 0 < (rand_val K 0 x).1)
  have hb' : ((rand_val K 0 x).1 : K) < 2147483647 := by
    exact_mod_cast (by omega : (rand_val K 0 x).1 < 2147483647)
  constructor
  · positivity
  · rw [div_lt_one (by norm_num)]
    exact hb'

/-! ## Lemmas on `draws` -/

theorem draws_succ (K : Type) [LinearOrderedField K] (n : Nat) (x : Int) :
    draws K (n + 1) x =
      ((draws K n (rand_val K 0 x).1).1, (rand_val K 0 x).2 :: (draws K n (rand_val K 0 x).1).2) :=
  rfl

theorem draws_length (K : Type) [LinearOrderedField K] (n : Nat) (x : Int) :
    (draws K n x).2.length = n := by
  induction n generalizing x with
  | zero => rfl
  | succ n ih => simp [draws_succ, ih]

theorem draws_state_range (K : Type) [LinearOrderedField K] (n : Nat) (x : Int)
    (h1 : 1 ≤ x) (h2 : x ≤ 2147483646) :
    1 ≤ (draws K n x).1 ∧ (draws K n x).1 ≤ 2147483646 := by
  induction n generalizing x with
  | zero => exact ⟨h1, h2⟩
  | succ n ih =>
    obtain ⟨ha, hb⟩ := rand_val_step_range K x h1 h2
    exact ih _ ha hb

theorem draws_state_range_closed (K : Type) [LinearOrderedField K] (n : Nat) (x : Int)
    (h1 : 1 ≤ x) (h2 : x ≤ 2147483647) :
    1 ≤ (draws K n x).1 ∧ (draws K n x).1 ≤ 2147483647 := by
  induction n generalizing x with
  | zero => exact ⟨h1, h2⟩
  | succ n ih =>
    obtain ⟨ha, hb⟩ := rand_val_step_range_closed K x h1 h2
    exact ih _ ha hb

/-- Closed form of the state after `n` draws. -/
theorem draws_state_closed_form (K : Type) [LinearOrderedField K] (n : Nat) (x : Int)
    (h1 : 1 ≤ x) (h2 : x ≤ 2147483646) :
    (draws K n x).1 = (16807 ^ n * x) % 2147483647 := by
  induction n generalizing x with
  | zero =>
    simp only [draws, pow_zero, one_mul]
    exact (Int.emod_eq_of_lt (by omega) (by omega)).symm
  | succ n ih =>
    obtain ⟨ha, hb⟩ := rand_val_step_range K x h1 h2
    rw [draws_succ]
    simp only
    rw [ih _ ha hb, rand_val_step_eq K x h1 h2, Int.mul_emod, Int.emod_emod, ← Int.mul_emod]
    congr 1
    ring

/-- The last value of `n + 1` draws is the final state divided by `m`. -/
theorem draws_last_value (K : Type) [LinearOrderedField K] (n : Nat) (x : Int) :
    (draws K (n + 1) x).2[n]? = some (((draws K (n + 1) x).1 : K) / 2147483647) := by
  induction n generalizing x with
  | zero => simp [draws, rand_val_draw_value]
  | succ n ih =>
    rw [draws_succ]
    simpa using ih (rand_val K 0 x).1

/-- A draw from a state in `[1, m - 1]` never returns to the same state. -/
theorem rand_val_step_ne (K : Type) [LinearOrderedField K] (x : Int)
    (h1 : 1 ≤ x) (h2 : x ≤ 2147483646) : (rand_val K 0 x).1 ≠ x := by
  rw [rand_val_step_eq K x h1 h2]
  intro h
  have hd : (2147483647 : Int) ∣ 16807 * x - x := Int.dvd_sub_of_emod_eq h
  have hd2 : (2147483647 : Int) ∣ x * 16806 := by
    have e : 16807 * x - x = x * 16806 := by ring
    rwa [e] at hd
  have hg : Int.gcd (2147483647 : Int) 16806 = 1 := by decide
  have hd3 : (2147483647 : Int) ∣ x := Int.dvd_of_dvd_mul_left_of_gcd_one hd2 hg
  have := Int.le_of_dvd (by omega) hd3
  omega

/-! ## Lemmas on the table build of `zipf` -/

/-- The accumulation loop of the normalisation constant adds the terms
`1 / pow(i, alpha)` for `i = 1..n` to the starting value. -/
theorem zipf_norm_loop {K : Type} [LinearOrderedField K] (pow : K → K → K) (alpha : K)
    (n : Nat) (c0 : K) :
    (List.range' 1 n).foldl (fun (c : K) (i : Nat) => c + 1 / pow (i : K) alpha) c0 =
      c0 + ∑ j in Finset.Icc 1 n, 1 / pow (j : K) alpha := by
  induction n with
  | zero => simp
  | succ n ih =>
    rw [List.range'_concat, List.foldl_append, ih, Finset.sum_Icc_succ_top (by omega)]
    simp only [List.foldl_cons, List.foldl_nil, one_mul]
    rw [add_comm 1 n]
    ring

theorem zipf_fill_succ {K : Type} [LinearOrderedField K] (pow : K → K → K) (alpha : K)
    (n : Nat) (c : K) (sp : Nat → K) :
    zipf_fill pow alpha (n + 1) c sp =
      Function.update (zipf_fill pow alpha n c sp) (n + 1)
        (zipf_fill pow alpha n c sp n + c / pow ((n + 1 : Nat) : K) alpha) := by
  unfold zipf_fill
  rw [List.range'_concat, List.foldl_append]
  simp only [List.foldl_cons, List.foldl_nil, one_mul]
  rw [add_comm 1 n]
  simp

/-- Entries of the filled table: `sum_probs[i] = c * sum_{j=1..i} 1/pow(j, alpha)`
for every `i ≤ n`. -/
theorem zipf_fill_entry {K : Type} [LinearOrderedField K] (pow : K → K → K) (alpha : K)
    (n : Nat) (c : K) (sp : Nat → K) (i : Nat) (hi : i ≤ n) :
    zipf_fill pow alpha n c sp i = c * ∑ j in Finset.Icc 1 i, 1 / pow (j : K) alpha := by
  induction n generalizing i with
  | zero =>
    have : i = 0 := by omega
    subst this
    simp [zipf_fill]
  | succ n ih =>
    rw [zipf_fill_succ]
    by_cases h : i = n + 1
    · subst h
      rw [Function.update_same, ih n le_rfl, Finset.sum_Icc_succ_top (by omega)]
      ring
    · rw [Function.update_noteq h]
      exact ih i (by omega)

/-- The sum of the weights `1 / pow(j, alpha)` is positive when there is at
least one term and `pow` is positive on `1..n`. -/
theorem zipf_weights_pos {K : Type} [LinearOrderedField K] (pow : K → K → K) (alpha : K)
    (n : Nat) (hn : 1 ≤ n) (hpow : ∀ j : Nat, 1 ≤ j → j ≤ n → 0 < pow (j : K) alpha) :
    0 < ∑ j in Finset.Icc 1 n, 1 / pow (j : K) alpha := by
  apply Finset.sum_pos
  · intro j hj
    rw [Finset.mem_Icc] at hj
    exact one_div_pos.mpr (hpow j hj.1 hj.2)
  · exact ⟨1, Finset.mem_Icc.mpr ⟨le_rfl, hn⟩⟩

/-- The statics after the build block of a first call (`first = TRUE`, `c = 0`). -/
theorem zipf_build_first {K : Type} [LinearOrderedField K] (pow : K → K → K) (alpha : K)
    (n : Nat) (sp0 : Nat → K) (x : Int) :
    zipf_build pow alpha n { first := true, c := 0, sum_probs := sp0, x := x } =
      { first := false,
        c := 1 / ∑ j in Finset.Icc 1 n, 1 / pow (j : K) alpha,
        sum_probs := zipf_fill pow alpha n (1 / ∑ j in Finset.Icc 1 n, 1 / pow (j : K) alpha) sp0,
        x := x } := by
  simp only [zipf_build, zipf_norm, zipf_norm_loop, if_true, zero_add]

/-- The built table is non-decreasing on `0..n`. -/
theorem zipf_fill_mono {K : Type} [LinearOrderedField K] (pow : K → K → K) (alpha : K)
    (n : Nat) (c : K) (sp : Nat → K) (hc : 0 ≤ c)
    (hpow : ∀ j : Nat, 1 ≤ j → j ≤ n → 0 < pow (j : K) alpha) (i : Nat) (hi : i < n) :
    zipf_fill pow alpha n c sp i ≤ zipf_fill pow alpha n c sp (i + 1) := by
  rw [zipf_fill_entry pow alpha n c sp i (by omega),
    zipf_fill_entry pow alpha n c sp (i + 1) (by omega), Finset.sum_Icc_succ_top (by omega)]
  have h := hpow (i + 1) (by omega) (by omega)
  have : 0 ≤ c * (1 / pow ((i + 1 : Nat) : K) alpha) :=
    mul_nonneg hc (le_of_lt (one_div_pos.mpr h))
  rw [mul_add]
  linarith

/-- The last entry of the table built with the normalisation constant is 1. -/
theorem zipf_fill_last {K : Type} [LinearOrderedField K] (pow : K → K → K) (alpha : K)
    (n : Nat) (sp : Nat → K) (hn : 1 ≤ n)
    (hpow : ∀ j : Nat, 1 ≤ j → j ≤ n → 0 < pow (j : K) alpha) :
    zipf_fill pow alpha n (1 / ∑ j in Finset.Icc 1 n, 1 / pow (j : K) alpha) sp n = 1 := by
  rw [zipf_fill_entry pow alpha n _ sp n le_rfl]
  exact one_div_mul_cancel (ne_of_gt (zipf_weights_pos pow alpha n hn hpow))

/-! ## Lemmas on the binary search of `zipf` -/

/-- A table that does not decrease from one index to the next does not
decrease over any distance. -/
theorem table_mono_of_adjacent {K : Type} [LinearOrderedField K] (S : Nat → K) (N : Nat)
    (h : ∀ i, i < N → S i ≤ S (i + 1)) (i j : Nat) (hij : i ≤ j) (hj : j ≤ N) : S i ≤ S j := by
  induction j, hij using Nat.le_induction with
  | base => exact le_rfl
  | succ k _ ih => exact le_trans (ih (by omega)) (h k (by omega))

/-- Loop invariant of the search: with `S[low-1] < z ≤ S[high]` the loop ends in
the `break` branch within `high - low + 1` iterations, at an index `i` of
`low..high` with `S[i-1] < z ≤ S[i]`. -/
theorem zipf_search_inv {K : Type} [LinearOrderedField K] (S : Nat → K) (z : K) (N : Nat)
    (hN : N < 2 ^ 63) (fuel : Nat) :
    ∀ low high : Nat, 1 ≤ low → low ≤ high → high ≤ N → S (low - 1) < z → z ≤ S high →
      high - low < fuel →
      ∃ i, zipf_search S z fuel low high = SearchResult.found i ∧ low ≤ i ∧ i ≤ high ∧
        S (i - 1) < z ∧ z ≤ S i := by
  induction fuel with
  | zero => intro low high _ _ _ _ _ hf; omega
  | succ fuel ih =>
    intro low high hl hlh hh hlo hhi hf
    have e1 : ((low + high) % 2 ^ 64) / 2 = (low + high) / 2 := by omega
    have e2 : ((low + high) / 2 + (2 ^ 64 - 1)) % 2 ^ 64 = (low + high) / 2 - 1 := by omega
    have e3 : ((low + high) / 2 + 1) % 2 ^ 64 = (low + high) / 2 + 1 := by omega
    unfold zipf_search
    simp only [e1, e2, e3]
    by_cases hA : z ≤ S ((low + high) / 2)
    · by_cases hB : S ((low + high) / 2 - 1) < z
      · rw [if_pos ⟨hA, hB⟩]
        exact ⟨_, rfl, by omega, by omega, hB, hA⟩
      · rw [if_neg (fun h => hB h.2), if_pos hA]
        have hne : (low + high) / 2 ≠ low := by
          intro h
          rw [h] at hB
          exact hB hlo
        rw [if_pos (by omega)]
        obtain ⟨i, h1, h2, h3, h4⟩ :=
          ih low ((low + high) / 2 - 1) hl (by omega) (by omega) hlo (not_lt.mp hB) (by omega)
        exact ⟨i, h1, h2, by omega, h4⟩
    · rw [if_neg (fun h => hA h.1), if_neg hA]
      have hne : (low + high) / 2 ≠ high := by
        intro h
        rw [h] at hA
        exact hA hhi
      rw [if_pos (by omega)]
      obtain ⟨i, h1, h2, h3, h4⟩ :=
        ih ((low + high) / 2 + 1) high (by omega) (by omega) hh
          (by simpa using not_le.mp hA) hhi (by omega)
      exact ⟨i, h1, by omega, h3, h4⟩

/-- In a non-decreasing table an index `i` with `S[i-1] < z ≤ S[i]` is the
smallest index at or after 1 whose entry reaches `z`. -/
theorem table_least_index {K : Type} [LinearOrderedField K] (S : Nat → K) (N : Nat) (z : K)
    (hmono : ∀ i, i < N → S i ≤ S (i + 1)) (i : Nat) (hiN : i ≤ N) (hi : S (i - 1) < z)
    (j : Nat) (hj : z ≤ S j) : i ≤ j := by
  by_contra hlt
  have h1 : S j ≤ S (i - 1) := table_mono_of_adjacent S N hmono j (i - 1) (by omega) (by omega)
  exact absurd (lt_of_le_of_lt (le_trans hj h1) hi) (lt_irrefl _)

/-- The search from `low = 1`, `high = N` on a non-decreasing table with
`S[0] < z ≤ S[N]`. -/
theorem zipf_search_spec {K : Type} [LinearOrderedField K] (S : Nat → K) (z : K) (N : Nat)
    (hN : N < 2 ^ 63) (hmono : ∀ i, i < N → S i ≤ S (i + 1)) (h0 : S 0 < z) (hz : z ≤ S N)
    (fuel : Nat) (hf : N ≤ fuel) :
    ∃ i, zipf_search S z fuel 1 N = SearchResult.found i ∧ 1 ≤ i ∧ i ≤ N ∧
      S (i - 1) < z ∧ z ≤ S i ∧ ∀ j, z ≤ S j → i ≤ j := by
  have hN1 : 1 ≤ N := by
    by_contra h
    have : N = 0 := by omega
    subst this
    exact absurd (lt_of_lt_of_le h0 hz) (lt_irrefl _)
  obtain ⟨i, h1, h2, h3, h4, h5⟩ :=
    zipf_search_inv S z N hN fuel 1 N le_rfl hN1 le_rfl (by simpa using h0) hz (by omega)
  exact ⟨i, h1, h2, h3, h4, h5, fun j hj => table_least_index S N z hmono i h3 h4 j hj⟩

/-- An index with `S[v-1] < z ≤ S[v]` is the one the search returns. -/
theorem zipf_search_eq_of_bracket {K : Type} [LinearOrderedField K] (S : Nat → K) (z : K)
    (N : Nat) (hN : N < 2 ^ 63) (hmono : ∀ i, i < N → S i ≤ S (i + 1)) (h0 : S 0 < z)
    (hz : z ≤ S N) (fuel : Nat) (hf : N ≤ fuel) (v : Nat) (hv : v ≤ N)
    (hlo : S (v - 1) < z) (hhi : z ≤ S v) :
    zipf_search S z fuel 1 N = SearchResult.found v := by
  obtain ⟨i, h1, _, h3, h4, h5, h6⟩ := zipf_search_spec S z N hN hmono h0 hz fuel hf
  have hiv : i ≤ v := h6 v hhi
  have hvi : v ≤ i := table_least_index S N z hmono v hv hlo i h5
  rw [h1, le_antisymm hiv hvi]

/-! ## Lemmas on a call of `zipf` -/

/-- From a state in `[1, m - 1]` the rejection loop accepts its first draw. -/
theorem draw_open_of_range (K : Type) [LinearOrderedField K] (fuel : Nat) (x : Int)
    (hf : 1 ≤ fuel) (h1 : 1 ≤ x) (h2 : x ≤ 2147483646) :
    draw_open K fuel x = some (rand_val K 0 x) := by
  obtain ⟨k, rfl⟩ : ∃ k, fuel = k + 1 := ⟨fuel - 1, by omega⟩
  obtain ⟨ha, hb⟩ := rand_val_value_open K x h1 h2
  unfold draw_open
  simp only
  rw [if_neg]
  rintro (h | h)
  · rw [h] at ha; exact lt_irrefl _ ha
  · rw [h] at hb; exact lt_irrefl _ hb

theorem zipf_build_x {K : Type} [LinearOrderedField K] (pow : K → K → K) (alpha : K)
    (n : Nat) (st : ZipfState K) : (zipf_build pow alpha n st).x = st.x := by
  unfold zipf_build
  split_ifs <;> rfl

/-- A call of `zipf` whose draw is accepted at once and whose search ends in the
`break` branch at an index of `1..n` returns that index. -/
theorem zipf_eq_of_search {K : Type} [LinearOrderedField K] (pow : K → K → K) (fuel : Nat)
    (alpha : K) (n : Nat) (st : ZipfState K) (v : Nat)
    (hf : 1 ≤ fuel) (h1 : 1 ≤ st.x) (h2 : st.x ≤ 2147483646)
    (hs : zipf_search (zipf_build pow alpha n st).sum_probs (rand_val K 0 st.x).2 fuel 1 n =
      SearchResult.found v)
    (hv1 : 1 ≤ v) (hv2 : v ≤ n) :
    zipf pow fuel alpha n st =
      Except.ok (v, { zipf_build pow alpha n st with x := (rand_val K 0 st.x).1 }) := by
  unfold zipf
  simp only [zipf_build_x, draw_open_of_range K fuel st.x hf h1 h2, hs]
  rw [if_pos ⟨hv1, hv2⟩]

/-- The table of a first call satisfies the hypotheses of the search: it
starts at 0, does not decrease and ends at 1. -/
theorem zipf_first_table {K : Type} [LinearOrderedField K] (pow : K → K → K) (alpha : K)
    (n : Nat) (sp0 : Nat → K) (x : Int) (hn : 1 ≤ n)
    (hpow : ∀ j : Nat, 1 ≤ j → j ≤ n → 0 < pow (j : K) alpha) :
    (zipf_build pow alpha n { first := true, c := 0, sum_probs := sp0, x := x }).sum_probs 0 = 0 ∧
    (∀ i, i < n →
      (zipf_build pow alpha n { first := true, c := 0, sum_probs := sp0, x := x }).sum_probs i ≤
      (zipf_build pow alpha n { first := true, c := 0, sum_probs := sp0, x := x }).sum_probs (i + 1)) ∧
    (zipf_build pow alpha n { first := true, c := 0, sum_probs := sp0, x := x }).sum_probs n = 1 := by
  rw [zipf_build_first]
  simp only
  refine ⟨?_, ?_, zipf_fill_last pow alpha n sp0 hn hpow⟩
  · rw [zipf_fill_entry pow alpha n _ sp0 0 (by omega)]
    simp
  · intro i hi
    exact zipf_fill_mono pow alpha n _ sp0
      (le_of_lt (one_div_pos.mpr (zipf_weights_pos pow alpha n hn hpow))) hpow i hi

/-- A first call of `zipf` from a generator state in `[1, m - 1]` returns a
value of `1..n` and leaves the built statics behind. -/
theorem zipf_first_call {K : Type} [LinearOrderedField K] (pow : K → K → K) (fuel : Nat)
    (alpha : K) (n : Nat) (sp0 : Nat → K) (x : Int) (hn : 1 ≤ n) (hmem : n < 2 ^ 63)
    (hpow : ∀ j : Nat, 1 ≤ j → j ≤ n → 0 < pow (j : K) alpha)
    (hf : n ≤ fuel) (h1 : 1 ≤ x) (h2 : x ≤ 2147483646) :
    ∃ v, zipf pow fuel alpha n { first := true, c := 0, sum_probs := sp0, x := x } =
        Except.ok (v, { zipf_build pow alpha n { first := true, c := 0, sum_probs := sp0, x := x }
                        with x := (rand_val K 0 x).1 }) ∧ 1 ≤ v ∧ v ≤ n := by
  obtain ⟨t0, tm, tl⟩ := zipf_first_table pow alpha n sp0 x hn hpow
  obtain ⟨za, zb⟩ := rand_val_value_open K x h1 h2
  obtain ⟨v, hs, hv1, hv2, _⟩ :=
    zipf_search_spec _ (rand_val K 0 x).2 n hmem tm (by rw [t0]; exact za)
      (by rw [tl]; exact le_of_lt zb) fuel hf
  exact ⟨v, zipf_eq_of_search pow fuel alpha n _ v (by omega) h1 h2 hs hv1 hv2, hv1, hv2⟩

theorem rpow_nat_pos (alpha : ℝ) (n : Nat) :
    ∀ j : Nat, 1 ≤ j → j ≤ n → 0 < (fun b e : ℝ => b ^ e) (j : ℝ) alpha := by
  intro j hj _
  exact Real.rpow_pos_of_pos (by exact_mod_cast (by omega : 0 < j)) alpha

/-! ## Lemmas for `zipf(1.0, 1000)` -/

theorem harmonic_sum_eq (i : Nat) :
    ∑ j in Finset.Icc 1 i, 1 / (fun b e : ℝ => b ^ e) (j : ℝ) 1 =
      (harmonic_num i : ℝ) / (Nat.factorial i : ℝ) := by
  induction i with
  | zero => simp [harmonic_num]
  | succ i ih =>
    rw [Finset.sum_Icc_succ_top (by omega), ih]
    have h1 : ((Nat.factorial i : Nat) : ℝ) ≠ 0 := by exact_mod_cast Nat.factorial_ne_zero i
    have h2 : ((i : ℝ) + 1) ≠ 0 := by positivity
    simp only [harmonic_num, Nat.factorial_succ, Real.rpow_one]
    push_cast
    rw [div_add_div _ _ h1 h2]
    congr 1 <;> ring

theorem harmonic_num_pos (i : Nat) (hi : 1 ≤ i) : 0 < harmonic_num i := by
  obtain ⟨k, rfl⟩ : ∃ k, i = k + 1 := ⟨i - 1, by omega⟩
  simp only [harmonic_num]
  have := Nat.factorial_pos k
  omega

/-- Entries of the table built by a first call `zipf(1.0, 1000)`. -/
theorem zipf_one_entry (sp0 : Nat → ℝ) (x : Int) (i : Nat) (hi : i ≤ 1000) :
    (zipf_build (fun b e : ℝ => b ^ e) 1 1000
        { first := true, c := 0, sum_probs := sp0, x := x }).sum_probs i =
      ((harmonic_num i * Nat.factorial 1000 : Nat) : ℝ) /
        ((Nat.factorial i * harmonic_num 1000 : Nat) : ℝ) := by
  rw [zipf_build_first]
  simp only
  rw [zipf_fill_entry _ _ _ _ _ i hi, harmonic_sum_eq, harmonic_sum_eq]
  have h1 : ((Nat.factorial i : Nat) : ℝ) ≠ 0 := by exact_mod_cast Nat.factorial_ne_zero i
  have h2 : ((Nat.factorial 1000 : Nat) : ℝ) ≠ 0 := by
    exact_mod_cast Nat.factorial_ne_zero 1000
  have h3 : ((harmonic_num 1000 : Nat) : ℝ) ≠ 0 := by
    exact_mod_cast ne_of_gt (harmonic_num_pos 1000 (by norm_num))
  push_cast
  field_simp
  ring

/-- The integer bracket gives the real one on the table of `zipf(1.0, 1000)`. -/
theorem zipf_one_bracket (sp0 : Nat → ℝ) (x : Int) (v xn : Nat) (hv1 : 1 ≤ v)
    (hv2 : v ≤ 1000) (hb : harmonic_bracket v xn) :
    (zipf_build (fun b e : ℝ => b ^ e) 1 1000
        { first := true, c := 0, sum_probs := sp0, x := x }).sum_probs (v - 1) <
          (xn : ℝ) / 2147483647 ∧
      (xn : ℝ) / 2147483647 ≤
        (zipf_build (fun b e : ℝ => b ^ e) 1 1000
          { first := true, c := 0, sum_probs := sp0, x := x }).sum_probs v := by
  have hp : 0 < harmonic_num 1000 := harmonic_num_pos 1000 (by norm_num)
  rw [zipf_one_entry sp0 x (v - 1) (by omega), zipf_one_entry sp0 x v hv2]
  have d1 : (0 : ℝ) < ((Nat.factorial (v - 1) * harmonic_num 1000 : Nat) : ℝ) := by
    exact_mod_cast Nat.mul_pos (Nat.factorial_pos _) hp
  have d2 : (0 : ℝ) < ((Nat.factorial v * harmonic_num 1000 : Nat) : ℝ) := by
    exact_mod_cast Nat.mul_pos (Nat.factorial_pos _) hp
  have dm : (0 : ℝ) < 2147483647 := by norm_num
  constructor
  · rw [div_lt_div_iff₀ d1 dm]
    exact_mod_cast hb.1
  · rw [div_le_div_iff₀ dm d2]
    exact_mod_cast hb.2

/-- Once the table is built (`first = FALSE`) the build block does nothing. -/
theorem zipf_build_built {K : Type} [LinearOrderedField K] (pow : K → K → K) (alpha : K)
    (n : Nat) (st : ZipfState K) (h : st.first = false) : zipf_build pow alpha n st = st := by
  simp [zipf_build, h]

theorem zipf_build_again {K : Type} [LinearOrderedField K] (pow : K → K → K) (alpha : K)
    (n : Nat) (sp0 : Nat → K) (x0 x : Int) :
    zipf_build pow alpha n
        { zipf_build pow alpha n { first := true, c := 0, sum_probs := sp0, x := x0 } with x := x } =
      { zipf_build pow alpha n { first := true, c := 0, sum_probs := sp0, x := x0 } with x := x } := by
  apply zipf_build_built
  rw [zipf_build_first]

/-- One call of `zipf(1.0, 1000)` in a state whose table is the one of the first
call: if the next generator state is `xn` and `xn / m` lies in the bracket of
`v`, the call returns `v`. -/
theorem zipf_one_call (fuel : Nat) (hf : 1000 ≤ fuel) (st : ZipfState ℝ) (sp0 : Nat → ℝ)
    (x0 : Int)
    (hst : zipf_build (fun b e : ℝ => b ^ e) 1 1000 st =
      { zipf_build (fun b e : ℝ => b ^ e) 1 1000
          { first := true, c := 0, sum_probs := sp0, x := x0 } with x := st.x })
    (v xn : Nat) (h1 : 1 ≤ st.x) (h2 : st.x ≤ 2147483646)
    (hx : (rand_val ℝ 0 st.x).1 = (xn : Int)) (hv1 : 1 ≤ v) (hv2 : v ≤ 1000)
    (hb : harmonic_bracket v xn) :
    zipf (fun b e : ℝ => b ^ e) fuel 1 1000 st =
      Except.ok (v, { zipf_build (fun b e : ℝ => b ^ e) 1 1000
          { first := true, c := 0, sum_probs := sp0, x := x0 } with x := (xn : Int) }) := by
  have hz : (rand_val ℝ 0 st.x).2 = (xn : ℝ) / 2147483647 := by
    rw [rand_val_draw_value, hx]
    push_cast
    rfl
  obtain ⟨za, zb⟩ := rand_val_value_open ℝ st.x h1 h2
  obtain ⟨t0, tm, tl⟩ :=
    zipf_first_table (fun b e : ℝ => b ^ e) 1 1000 sp0 x0 (by norm_num) (rpow_nat_pos 1 1000)
  obtain ⟨b1, b2⟩ := zipf_one_bracket sp0 x0 v xn hv1 hv2 hb
  have hsp : (zipf_build (fun b e : ℝ => b ^ e) 1 1000 st).sum_probs =
      (zipf_build (fun b e : ℝ => b ^ e) 1 1000
        { first := true, c := 0, sum_probs := sp0, x := x0 }).sum_probs := by
    rw [hst]
  have hs : zipf_search (zipf_build (fun b e : ℝ => b ^ e) 1 1000 st).sum_probs
      (rand_val ℝ 0 st.x).2 fuel 1 1000 = SearchResult.found v := by
    rw [hsp, hz]
    rw [hz] at za zb
    generalize (zipf_build (fun b e : ℝ => b ^ e) 1 1000
        { first := true, c := 0, sum_probs := sp0, x := x0 }).sum_probs = S at t0 tm tl b1 b2 ⊢
    exact zipf_search_eq_of_bracket S _ 1000 (by norm_num) tm (by rw [t0]; exact za)
      (by rw [tl]; exact le_of_lt zb) fuel hf v hv2 b1 b2
  rw [zipf_eq_of_search _ fuel 1 1000 st v (by omega) h1 h2 hs hv1 hv2, hst, hx]

theorem rand_val_state_at (x : Int) (xn : Nat) (hx : 0 ≤ x)
    (h : (if 16807 * (x % 127773) - 2836 * (x / 127773) > 0
      then 16807 * (x % 127773) - 2836 * (x / 127773)
      else 16807 * (x % 127773) - 2836 * (x / 127773) + 2147483647) = (xn : Int)) :
    (rand_val ℝ 0 x).1 = (xn : Int) := by
  rw [rand_val_draw_state ℝ x hx, h]

/-! ## Lemmas on calls of `zipf` after the first -/

/-- The `break` branch is only taken at an index whose entry reaches `z` while
the entry before it does not. -/
theorem zipf_search_found {K : Type} [LinearOrderedField K] (S : Nat → K) (z : K) (fuel : Nat) :
    ∀ low high v : Nat, zipf_search S z fuel low high = SearchResult.found v →
      z ≤ S v ∧ S ((v + (2 ^ 64 - 1)) % 2 ^ 64) < z := by
  induction fuel with
  | zero =>
    intro low high v h
    simp [zipf_search] at h
  | succ fuel ih =>
    intro low high v h
    unfold zipf_search at h
    simp only at h
    split_ifs at h with h1 h2 h3 h4
    · cases h
      exact h1
    · exact ih _ _ _ h
    · exact ih _ _ _ h

/-- A call of `zipf` on built statics does not depend on `alpha`, and what it
returns keeps `c` and the table. -/
theorem zipf_built_call {K : Type} [LinearOrderedField K] (pow : K → K → K) (fuel : Nat)
    (alpha : K) (n : Nat) (st : ZipfState K) (h : st.first = false) :
    (∀ alpha2 : K, zipf pow fuel alpha n st = zipf pow fuel alpha2 n st) ∧
      ∀ v st1, zipf pow fuel alpha n st = Except.ok (v, st1) →
        st1.first = false ∧ st1.c = st.c ∧ st1.sum_probs = st.sum_probs := by
  constructor
  · intro alpha2
    unfold zipf
    rw [zipf_build_built pow alpha n st h, zipf_build_built pow alpha2 n st h]
  · intro v st1 hz
    unfold zipf at hz
    rw [zipf_build_built pow alpha n st h] at hz
    simp only at hz
    split at hz
    · cases hz
    · split at hz
      · cases hz
      · cases hz
      · split_ifs at hz
        cases hz
        exact ⟨h, rfl, rfl⟩

/-- The weights `1 / j^alpha` do not increase with `alpha`, for `j ≥ 1`. -/
theorem rpow_weights_antitone (alpha1 alpha2 : ℝ) (h : alpha1 ≤ alpha2) (N : Nat) :
    ∑ j in Finset.Icc 1 N, 1 / (fun b e : ℝ => b ^ e) (j : ℝ) alpha2 ≤
      ∑ j in Finset.Icc 1 N, 1 / (fun b e : ℝ => b ^ e) (j : ℝ) alpha1 := by
  apply Finset.sum_le_sum
  intro j hj
  rw [Finset.mem_Icc] at hj
  have h1 : (1 : ℝ) ≤ (j : ℝ) := by exact_mod_cast hj.1
  have hp : 0 < (j : ℝ) ^ alpha1 := Real.rpow_pos_of_pos (by linarith) alpha1
  exact one_div_le_one_div_of_le hp (Real.rpow_le_rpow_of_exponent_le h1 h)

/-- The first entry of the table of a first call is the normalisation constant,
which does not decrease with `alpha`. -/
theorem zipf_first_entry_mono (alpha1 alpha2 : ℝ) (h : alpha1 ≤ alpha2) (N : Nat) (hN : 1 ≤ N)
    (sp1 sp2 : Nat → ℝ) (x1 x2 : Int) :
    (zipf_build (fun b e : ℝ => b ^ e) alpha1 N
        { first := true, c := 0, sum_probs := sp1, x := x1 }).sum_probs 1 ≤
      (zipf_build (fun b e : ℝ => b ^ e) alpha2 N
        { first := true, c := 0, sum_probs := sp2, x := x2 }).sum_probs 1 := by
  rw [zipf_build_first, zipf_build_first]
  simp only
  rw [zipf_fill_entry _ _ _ _ _ 1 hN, zipf_fill_entry _ _ _ _ _ 1 hN]
  have e : Finset.Icc 1 1 = ({1} : Finset Nat) := rfl
  simp only [e, Finset.sum_singleton, Nat.cast_one, Real.one_rpow, div_one, mul_one]
  exact one_div_le_one_div_of_le
    (zipf_weights_pos (fun b e : ℝ => b ^ e) alpha2 N hN (rpow_nat_pos alpha2 N))
    (rpow_weights_antitone alpha1 alpha2 h N)

/-! ## Lemmas on the empirical table -/

theorem except_eq_ok_of_toOption {ε α : Type} {e : Except ε α} {a : α}
    (h : e.toOption = some a) : e = Except.ok a := by
  cases e with
  | error _ => simp [Except.toOption] at h
  | ok b =>
    simp only [Except.toOption, Option.some.injEq] at h
    rw [h]

theorem emp_build_append {K : Type} [LinearOrderedField K] (CDF0 : Nat → rv K) (first : K × K)
    (l : List (K × K)) (a : K × K) :
    emp_build CDF0 first (l ++ [a]) = emp_build_step (emp_build CDF0 first l) a := by
  simp [emp_build, List.foldl_append]

/-- The table after the build, for a file of at most `MAX_ENTRY` lines:
`Num_entries` is the number of lines after the first, the values are stored in
input order, and each cumulative value is the probability of its line plus the
cumulative value before it. -/
theorem emp_build_spec {K : Type} [LinearOrderedField K] (CDF0 : Nat → rv K) (first : K × K)
    (rest : List (K × K)) (hlen : rest.length < MAX_ENTRY) :
    ∃ CDF, emp_build CDF0 first rest = some (CDF, rest.length) ∧
      (CDF 0).cdf_val = first.1 ∧
      (∀ i, i ≤ rest.length → ((first :: rest)[i]?).map Prod.snd = some (CDF i).rv_val) ∧
      (∀ i, i < rest.length →
        (rest[i]?).map (fun l => l.1 + (CDF i).cdf_val) = some (CDF (i + 1)).cdf_val) := by
  induction rest using List.reverseRecOn with
  | nil =>
    refine ⟨_, rfl, by simp, ?_, ?_⟩
    · intro i hi
      have : i = 0 := by simpa using hi
      subst this
      simp
    · intro i hi
      simp at hi
  | append_singleton l a ih =>
    have hl : l.length + 1 < MAX_ENTRY := by simpa using hlen
    obtain ⟨CDF, hb, h0, hv, hc⟩ := ih (by omega)
    refine ⟨Function.update CDF (l.length + 1)
      { cdf_val := a.1 + (CDF (l.length + 1 - 1)).cdf_val, rv_val := a.2 }, ?_, ?_, ?_, ?_⟩
    · rw [emp_build_append, hb]
      simp [emp_build_step, hl]
    · rw [Function.update_noteq (by omega)]
      exact h0
    · intro i hi
      simp only [List.length_append, List.length_singleton] at hi
      by_cases h : i = l.length + 1
      · subst h
        rw [Function.update_same]
        rw [← List.cons_append, List.getElem?_append_right (by simp)]
        simp
      · rw [Function.update_noteq h]
        rw [← List.cons_append, List.getElem?_append_left (by simp; omega)]
        exact hv i (by omega)
    · intro i hi
      simp only [List.length_append, List.length_singleton] at hi
      by_cases h : i = l.length
      · subst h
        rw [Function.update_same, Function.update_noteq (by omega)]
        simp
      · rw [Function.update_noteq (by omega), Function.update_noteq (by omega)]
        rw [List.getElem?_append_left (by omega)]
        exact hc i (by omega)

/-- A table built from non-negative probabilities does not decrease. -/
theorem emp_build_mono {K : Type} [LinearOrderedField K] (rest : List (K × K))
    (CDF : Nat → rv K)
    (hc : ∀ i, i < rest.length →
      (rest[i]?).map (fun l => l.1 + (CDF i).cdf_val) = some (CDF (i + 1)).cdf_val)
    (hp : ∀ l ∈ rest, 0 ≤ l.1) (i : Nat) (hi : i < rest.length) :
    (CDF i).cdf_val ≤ (CDF (i + 1)).cdf_val := by
  have h1 := hc i hi
  rw [List.getElem?_eq_getElem hi] at h1
  simp only [Option.map_some', Option.some.injEq] at h1
  rw [← h1]
  have := hp rest[i] (List.getElem_mem _)
  linarith

/-- The scan returns the value stored at the first index whose cumulative value
reaches `z`. -/
theorem emp_scan_first {K : Type} [LinearOrderedField K] (CDF : Nat → rv K) (z : K)
    (count : Nat) :
    ∀ i0 i : Nat, i0 ≤ i → i < i0 + count → z ≤ (CDF i).cdf_val →
      (∀ j, i0 ≤ j → j < i → ¬ z ≤ (CDF j).cdf_val) →
      emp_scan CDF z count i0 = some (CDF i).rv_val := by
  induction count with
  | zero => intro i0 i h1 h2; omega
  | succ count ih =>
    intro i0 i h1 h2 hz hfirst
    unfold emp_scan
    by_cases h : i = i0
    · subst h
      rw [if_pos hz]
    · rw [if_neg (hfirst i0 le_rfl (by omega))]
      exact ih (i0 + 1) i (by omega) (by omega) hz (fun j hj1 hj2 => hfirst j (by omega) hj2)

theorem emp_build_add_append {K : Type} [LinearOrderedField K] (add : K → K → K)
    (CDF0 : Nat → rv K) (first : K × K) (l : List (K × K)) (a : K × K) :
    emp_build_add add CDF0 first (l ++ [a]) =
      emp_build_step_add add (emp_build_add add CDF0 first l) a := by
  simp [emp_build_add, List.foldl_append]

/-- The table after the build with the addition `add`, for a file of at most
`MAX_ENTRY` lines: `Num_entries` is the number of lines after the first, the
first cumulative value is the first probability as read, and each further one
is `add` of the probability of its line and the cumulative value before it. -/
theorem emp_build_add_spec {K : Type} [LinearOrderedField K] (add : K → K → K)
    (CDF0 : Nat → rv K) (first : K × K) (rest : List (K × K))
    (hlen : rest.length < MAX_ENTRY) :
    ∃ CDF, emp_build_add add CDF0 first rest = some (CDF, rest.length) ∧
      (CDF 0).cdf_val = first.1 ∧
      (∀ i, i < rest.length →
        (rest[i]?).map (fun l => add l.1 (CDF i).cdf_val) = some (CDF (i + 1)).cdf_val) := by
  induction rest using List.reverseRecOn with
  | nil =>
    refine ⟨_, rfl, by simp, ?_⟩
    intro i hi
    simp at hi
  | append_singleton l a ih =>
    have hl : l.length + 1 < MAX_ENTRY := by simpa using hlen
    obtain ⟨CDF, hb, h0, hc⟩ := ih (by omega)
    refine ⟨Function.update CDF (l.length + 1)
      { cdf_val := add a.1 (CDF (l.length + 1 - 1)).cdf_val, rv_val := a.2 }, ?_, ?_, ?_⟩
    · rw [emp_build_add_append, hb]
      simp [emp_build_step_add, hl]
    · rw [Function.update_noteq (by omega)]
      exact h0
    · intro i hi
      simp only [List.length_append, List.length_singleton] at hi
      by_cases h : i = l.length
      · subst h
        rw [Function.update_same, Function.update_noteq (by omega)]
        simp
      · rw [Function.update_noteq (by omega), Function.update_noteq (by omega)]
        rw [List.getElem?_append_left (by omega)]
        exact hc i (by omega)

/-- With the exact addition the build with a parameter is `emp_build`. -/
theorem emp_build_add_exact {K : Type} [LinearOrderedField K] (CDF0 : Nat → rv K)
    (first : K × K) (rest : List (K × K)) :
    emp_build_add (fun a b => a + b) CDF0 first rest = emp_build CDF0 first rest := by
  have hstep : emp_build_step_add (fun a b : K => a + b) = emp_build_step := by
    funext acc line
    rfl
  simp only [emp_build_add, emp_build, hstep]

/-- With the exact addition the build and check with a parameter is
`emp_load`, and the run is `emp_main`. -/
theorem emp_load_add_exact {K : Type} [LinearOrderedField K] (CDF0 : Nat → rv K)
    (first : K × K) (rest : List (K × K)) :
    emp_load_add (fun a b => a + b) CDF0 first rest = emp_load CDF0 first rest ∧
      ∀ (x0 seed : Int) (num_samples : Nat),
        emp_main_add (fun a b => a + b) CDF0 x0 first rest seed num_samples =
          emp_main CDF0 x0 first rest seed num_samples := by
  have h : emp_load_add (fun a b => a + b) CDF0 first rest = emp_load CDF0 first rest := by
    simp only [emp_load_add, emp_load, emp_build_add_exact]
  refine ⟨h, ?_⟩
  intro x0 seed num_samples
  simp only [emp_main_add, emp_main, h]

theorem emp_main_seed {K : Type} [LinearOrderedField K] (CDF0 : Nat → rv K) (x0 x1 : Int)
    (first : K × K) (rest : List (K × K)) (seed : Int) (num_samples : Nat) (hs : 0 < seed) :
    emp_main CDF0 x0 first rest seed num_samples = emp_main CDF0 x1 first rest seed num_samples := by
  simp only [emp_main, rand_val_seed_pos K seed _ hs]

/-! ## Lemmas on `Generator31` -/

theorem testBit_one_eq (k : Nat) : Nat.testBit 1 k = decide (k = 0) := by
  have h := @Nat.testBit_two_pow 0 k
  simp only [pow_zero] at h
  rw [h]
  by_cases hk : k = 0
  · simp [hk]
  · have : ¬ (0 = k) := fun e => hk e.symm
    simp [hk, this]

theorem Generator31_testBit (n i : Nat) :
    (Generator31 n).1.testBit i =
      (n.testBit (i + 1) || (decide (i = 30) && (n.testBit 0 ^^ n.testBit 3))) := by
  simp only [Generator31, Nat.testBit_lor, Nat.testBit_shiftRight, Nat.testBit_shiftLeft,
    Nat.testBit_land, Nat.testBit_xor, testBit_one_eq]
  rw [add_comm 1 i]
  by_cases h : i = 30
  · subst h
    simp
  · by_cases h30 : i ≥ 30
    · have h2 : ¬ (i - 30 = 0) := by omega
      simp [h, h2]
    · simp [h, h30]

theorem Generator31_lt (n : Nat) (h : n < 2 ^ 31) : (Generator31 n).1 < 2 ^ 31 := by
  apply Nat.lt_pow_two_of_testBit
  intro i hi
  rw [Generator31_testBit]
  have h1 : n.testBit (i + 1) = false :=
    Nat.testBit_lt_two_pow (lt_of_lt_of_le h (Nat.pow_le_pow_right (by norm_num) (by omega)))
  have h2 : ¬ (i = 30) := by omega
  simp [h1, h2]

theorem Generator31_xor (a b : Nat) (ha : a < 2 ^ 31) (hb : b < 2 ^ 31) :
    (Generator31 (a ^^^ b)).1 = (Generator31 a).1 ^^^ (Generator31 b).1 := by
  apply Nat.eq_of_testBit_eq
  intro i
  rw [Nat.testBit_xor, Generator31_testBit, Generator31_testBit, Generator31_testBit]
  simp only [Nat.testBit_xor]
  by_cases h : i = 30
  · subst h
    have h1 : a.testBit 31 = false := Nat.testBit_lt_two_pow ha
    have h2 : b.testBit 31 = false := Nat.testBit_lt_two_pow hb
    simp only [h1, h2]
    cases a.testBit 0 <;> cases a.testBit 3 <;> cases b.testBit 0 <;> cases b.testBit 3 <;> rfl
  · simp [h]

theorem Generator31_run_eq_iterate (k n : Nat) :
    Generator31_run k n = (fun n => (Generator31 n).1)^[k] n := by
  induction k generalizing n with
  | zero => rfl
  | succ k ih => exact ih _

theorem XorLinear31.zero {g : Nat → Nat} (hg : XorLinear31 g) : g 0 = 0 := by
  have h := hg.2 0 0 (by norm_num) (by norm_num)
  simp only [Nat.xor_self] at h
  exact h

theorem XorLinear31.comp {g h : Nat → Nat} (hg : XorLinear31 g) (hh : XorLinear31 h) :
    XorLinear31 (g ∘ h) := by
  refine ⟨fun a ha => hg.1 _ (hh.1 a ha), ?_⟩
  intro a b ha hb
  simp only [Function.comp]
  rw [hh.2 a b ha hb, hg.2 _ _ (hh.1 a ha) (hh.1 b hb)]

theorem XorLinear31.id : XorLinear31 (fun n => n) :=
  ⟨fun _ ha => ha, fun _ _ _ _ => rfl⟩

theorem Generator31_linear : XorLinear31 (fun n => (Generator31 n).1) :=
  ⟨Generator31_lt, Generator31_xor⟩

theorem Generator31_iterate_linear (k : Nat) :
    XorLinear31 ((fun n => (Generator31 n).1)^[k]) := by
  induction k with
  | zero => exact XorLinear31.id
  | succ k ih =>
    rw [Function.iterate_succ]
    exact ih.comp Generator31_linear

/-- The low `k + 1` bits of `v` are its low `k` bits, with bit `k` added. -/
theorem mod_two_pow_succ_xor (v k : Nat) :
    v % 2 ^ (k + 1) = if v.testBit k then (v % 2 ^ k) ^^^ 2 ^ k else v % 2 ^ k := by
  apply Nat.eq_of_testBit_eq
  intro i
  split_ifs with h
  · rw [Nat.testBit_xor, Nat.testBit_mod_two_pow, Nat.testBit_mod_two_pow, Nat.testBit_two_pow]
    by_cases hik : i = k
    · subst hik
      simp [h]
    · have : ¬ (k = i) := fun e => hik e.symm
      by_cases hlt : i < k
      · have : i < k + 1 := by omega
        simp [*]
      · have : ¬ (i < k + 1) := by omega
        simp [*]
  · rw [Nat.testBit_mod_two_pow, Nat.testBit_mod_two_pow]
    by_cases hik : i = k
    · subst hik
      simp [h]
    · by_cases hlt : i < k
      · have : i < k + 1 := by omega
        simp [*]
      · have : ¬ (i < k + 1) := by omega
        simp [*]

theorem xor_apply_low_bits (g : Nat → Nat) (hg : XorLinear31 g) (v : Nat) (k : Nat) (hk : k ≤ 31) :
    (List.range k).foldl
        (fun (acc i : Nat) => if v.testBit i then acc ^^^ (basis_images g).getD i 0 else acc) 0 =
      g (v % 2 ^ k) := by
  induction k with
  | zero => simp [Nat.mod_one, hg.zero]
  | succ k ih =>
    rw [List.range_succ, List.foldl_append, ih (by omega)]
    simp only [List.foldl_cons, List.foldl_nil]
    have hb : (basis_images g).getD k 0 = g (2 ^ k) := by
      simp only [basis_images]
      rw [List.getD_eq_getElem?_getD, List.getElem?_map, List.getElem?_range (by omega)]
      rfl
    have h1 : v % 2 ^ k < 2 ^ 31 :=
      lt_of_lt_of_le (Nat.mod_lt _ (by positivity)) (Nat.pow_le_pow_right (by norm_num) (by omega))
    have h2 : 2 ^ k < 2 ^ 31 := Nat.pow_lt_pow_right (by norm_num) (by omega)
    rw [mod_two_pow_succ_xor, hb]
    split_ifs with h
    · rw [hg.2 _ _ h1 h2]
    · rfl

/-- A map that respects `xor` on 31-bit values is determined by its values on
the powers of two. -/
theorem xor_apply_basis_images (g : Nat → Nat) (hg : XorLinear31 g) (v : Nat) (hv : v < 2 ^ 31) :
    xor_apply (basis_images g) v = g v := by
  unfold xor_apply
  rw [xor_apply_low_bits g hg v 31 le_rfl, Nat.mod_eq_of_lt hv]

theorem Generator31_double_spec (g : Nat → Nat) (hg : XorLinear31 g) :
    Generator31_double (basis_images g) =
      basis_images (fun v => (Generator31 (g (g v))).1) := by
  unfold Generator31_double
  simp only [basis_images, List.map_map]
  apply List.map_congr_left
  intro i hi
  have hi' : i < 31 := List.mem_range.mp hi
  have h2 : 2 ^ i < 2 ^ 31 := Nat.pow_lt_pow_right (by norm_num) hi'
  simp only [Function.comp]
  have e := xor_apply_basis_images g hg _ (hg.1 _ h2)
  simp only [basis_images] at e
  rw [e]

theorem Generator31_double_iterate (j : Nat) :
    Generator31_double (basis_images ((fun n => (Generator31 n).1)^[j])) =
      basis_images ((fun n => (Generator31 n).1)^[2 * j + 1]) := by
  rw [Generator31_double_spec _ (Generator31_iterate_linear j)]
  congr 1
  funext v
  rw [show 2 * j + 1 = (j + j) + 1 by omega, Function.iterate_succ_apply',
    Function.iterate_add_apply]

theorem Generator31_double_iter_spec (k : Nat) :
    ∀ j : Nat, Generator31_double_iter k (basis_images ((fun n => (Generator31 n).1)^[j])) =
      basis_images ((fun n => (Generator31 n).1)^[(j + 1) * 2 ^ k - 1]) := by
  induction k with
  | zero =>
    intro j
    simp [Generator31_double_iter]
  | succ k ih =>
    intro j
    have e : (2 * j + 1 + 1) * 2 ^ k - 1 = (j + 1) * 2 ^ (k + 1) - 1 := by
      rw [pow_succ]
      congr 1
      ring
    rw [Generator31_double_iter, Generator31_double_iterate, ih, e]

set_option maxRecDepth 1000000 in
/-- The basis images after 30 doublings, computed: those of the identity. -/
theorem Generator31_double_iter_value :
    Generator31_double_iter 30 (basis_images (fun n => (Generator31 n).1)) =
      basis_images (fun n => n) := by
  decide!

/-- `2^31 - 1` calls of `Generator31` bring every 31-bit state back to itself. -/
theorem Generator31_period (v : Nat) (hv : v < 2 ^ 31) :
    (fun n => (Generator31 n).1)^[2 ^ 31 - 1] v = v := by
  have h := Generator31_double_iter_spec 30 1
  rw [Function.iterate_one, Generator31_double_iter_value] at h
  have e : (1 + 1) * 2 ^ 30 - 1 = 2 ^ 31 - 1 := by norm_num
  rw [e] at h
  rw [← xor_apply_basis_images _ (Generator31_iterate_linear (2 ^ 31 - 1)) v hv, ← h]
  exact xor_apply_basis_images _ XorLinear31.id v hv

theorem mersenne_31_prime : Nat.Prime (2 ^ 31 - 1) :=
  lucas_lehmer_sufficiency 31 (by norm_num) (by norm_num)

/-- No two of the first `2^31 - 1` states after the start state 1 coincide. -/
theorem Generator31_run_injective (i j : Nat) (hi : 1 ≤ i) (hij : i < j) (hj : j ≤ 2 ^ 31 - 1) :
    Generator31_run i 1 ≠ Generator31_run j 1 := by
  rw [Generator31_run_eq_iterate, Generator31_run_eq_iterate]
  intro h
  have hM := Generator31_period 1 (by norm_num)
  have h1 := congrArg ((fun n => (Generator31 n).1)^[2 ^ 31 - 1 - i]) h
  rw [← Function.iterate_add_apply, ← Function.iterate_add_apply] at h1
  rw [show 2 ^ 31 - 1 - i + i = 2 ^ 31 - 1 by omega, hM] at h1
  rw [show 2 ^ 31 - 1 - i + j = (j - i) + (2 ^ 31 - 1) by omega, Function.iterate_add_apply,
    hM] at h1
  have p1 : Function.IsPeriodicPt (fun n => (Generator31 n).1) (j - i) 1 := h1.symm
  have p2 : Function.IsPeriodicPt (fun n => (Generator31 n).1) (2 ^ 31 - 1) 1 := hM
  have p3 := p1.gcd p2
  have hc : Nat.Coprime (2 ^ 31 - 1) (j - i) :=
    (Nat.Prime.coprime_iff_not_dvd mersenne_31_prime).mpr
      (Nat.not_dvd_of_pos_of_lt (by omega) (by omega))
  rw [Nat.gcd_comm, Nat.Coprime.gcd_eq_one hc] at p3
  have : (Generator31 1).1 = 1 := p3
  revert this
  decide

/-! ## Lemmas on the fill and the shuffle of `genuniq.c` -/

/-- The array after the fill holds the states after 1, 2, ..., `num` calls. -/
theorem genuniq_fill_eq (num : Nat) :
    ∀ n : Nat, (genuniq_fill num n).1 =
      (List.range num).map (fun k => ((Generator31_run (k + 1) n : Nat) : Int)) := by
  induction num with
  | zero => intro n; rfl
  | succ num ih =>
    intro n
    rw [List.range_succ_eq_map, List.map_cons, List.map_map]
    simp only [genuniq_fill]
    rw [ih]
    rfl

theorem Generator31_snd (n : Nat) : (Generator31 n).2 = (Generator31 n).1 := rfl

/-- The state after one more call. -/
theorem Generator31_run_succ (k n : Nat) :
    Generator31_run (k + 1) n = (Generator31 (Generator31_run k n)).1 := by
  rw [Generator31_run_eq_iterate, Generator31_run_eq_iterate, Function.iterate_succ_apply']

/-- The step of `randInt` is the step of `rand_val`. -/
theorem randInt_state (seed x : Int) :
    (randInt seed x).1 = (rand_val ℚ 0 (if seed > 0 then seed else x)).1 := by
  simp [randInt, rand_val]

theorem randInt_value (seed x : Int) : (randInt seed x).2 = (randInt seed x).1 := rfl

/-- From a state in `[1, m]`, and from any positive `int` seed, `randInt` leaves
the state in `[1, m]`. -/
theorem randInt_range (seed x : Int)
    (h : (0 < seed ∧ seed ≤ 2147483647) ∨ (seed ≤ 0 ∧ 1 ≤ x ∧ x ≤ 2147483647)) :
    1 ≤ (randInt seed x).1 ∧ (randInt seed x).1 ≤ 2147483647 := by
  rw [randInt_state]
  rcases h with ⟨h1, h2⟩ | ⟨h1, h2, h3⟩
  · rw [if_pos h1]
    exact rand_val_step_range_closed ℚ seed (by omega) h2
  · rw [if_neg (by omega)]
    exact rand_val_step_range_closed ℚ x h2 h3

/-- Exchanging two entries of an array permutes it. -/
theorem shuffle_swap_perm (z : List Int) (i j : Nat) (hi : i < z.length) (hj : j < z.length) :
    (shuffle_swap z i j).Perm z := by
  rw [List.perm_iff_count]
  intro a
  unfold shuffle_swap
  rw [List.getD_eq_getElem _ _ hi, List.getD_eq_getElem _ _ hj]
  rw [List.count_set _ _ _ _ (by rw [List.length_set]; exact hj), List.count_set _ _ _ _ hi]
  have hj1 : j < (z.set i z[j]).length := by rw [List.length_set]; exact hj
  have e : (z.set i z[j])[j] = z[j] := by
    rw [List.getElem_set]
    split_ifs with h
    · rfl
    · rfl
  rw [e]
  have h1 := List.boole_getElem_le_count a z i hi
  have h2 := List.boole_getElem_le_count a z j hj
  split_ifs at h1 h2 ⊢ <;> omega

/-- From a state in `[1, m]` the shuffle loop never leaves the array, and its
result is a permutation of the array it started with. -/
theorem genuniq_shuffle_perm (count : Nat) :
    ∀ (i : Nat) (z : List Int) (x : Int), 1 ≤ x → x ≤ 2147483647 → i + count ≤ z.length →
      ∃ z1 x1, genuniq_shuffle count i z x = some (z1, x1) ∧ z1.Perm z ∧
        1 ≤ x1 ∧ x1 ≤ 2147483647 := by
  induction count with
  | zero =>
    intro i z x h1 h2 _
    exact ⟨z, x, rfl, List.Perm.refl z, h1, h2⟩
  | succ count ih =>
    intro i z x h1 h2 hlen
    obtain ⟨ha, hb⟩ := randInt_range 0 x (Or.inr ⟨le_rfl, h1, h2⟩)
    have hpos : (0 : Int) < (z.length : Int) := by
      have : 0 < z.length := by omega
      exact_mod_cast this
    have hj0 : 0 ≤ Int.tmod (randInt 0 x).2 (z.length : Int) :=
      Int.tmod_nonneg _ (by rw [randInt_value]; omega)
    have hj1 : Int.tmod (randInt 0 x).2 (z.length : Int) < (z.length : Int) :=
      Int.tmod_lt_of_pos _ hpos
    have hjn : (Int.tmod (randInt 0 x).2 (z.length : Int)).toNat < z.length := by omega
    have hp := shuffle_swap_perm z i _ (by omega) hjn
    unfold genuniq_shuffle
    simp only
    rw [if_pos ⟨hj0, hj1⟩]
    obtain ⟨z1, x1, hs, hperm, hx⟩ :=
      ih (i + 1) _ (randInt 0 x).1 ha hb (by rw [hp.length_eq]; omega)
    exact ⟨z1, x1, hs, hperm.trans hp, hx⟩

/-! ## Lemmas on the degenerate states and on 32-bit arithmetic -/

/-- From the state 0 (never seeded) a draw stores `m` and returns 1. -/
theorem rand_val_at_zero (K : Type) [LinearOrderedField K] :
    rand_val K 0 0 = (2147483647, 1) := by
  refine Prod.ext ?_ ?_
  · show (rand_val K 0 0).1 = 2147483647
    rw [rand_val_draw_state K 0 le_rfl]
    decide
  · rw [rand_val_draw_value, rand_val_draw_state K 0 le_rfl]
    norm_num

/-- From the state `m` a draw stores `m` again and returns 1. -/
theorem rand_val_at_m (K : Type) [LinearOrderedField K] :
    rand_val K 0 2147483647 = (2147483647, 1) := by
  refine Prod.ext ?_ ?_
  · show (rand_val K 0 2147483647).1 = 2147483647
    rw [rand_val_draw_state K _ (by norm_num)]
    decide
  · rw [rand_val_draw_value, rand_val_draw_state K _ (by norm_num)]
    norm_num

theorem draws_from_m (K : Type) [LinearOrderedField K] (n : Nat) :
    draws K n 2147483647 = (2147483647, List.replicate n 1) := by
  induction n with
  | zero => rfl
  | succ n ih =>
    rw [draws_succ, rand_val_at_m, ih]
    rfl

theorem draws_from_zero (K : Type) [LinearOrderedField K] (n : Nat) :
    draws K (n + 1) 0 = (2147483647, List.replicate (n + 1) 1) := by
  rw [draws_succ, rand_val_at_zero, draws_from_m]
  rfl

/-- The rejection loop never ends from the state `m`. -/
theorem draw_open_from_m (K : Type) [LinearOrderedField K] (fuel : Nat) :
    draw_open K fuel 2147483647 = none := by
  induction fuel with
  | zero => rfl
  | succ fuel ih =>
    unfold draw_open
    simp only [rand_val_at_m]
    rw [if_pos (Or.inr trivial)]
    exact ih

/-- The rejection loop never ends from the state 0. -/
theorem draw_open_from_zero (K : Type) [LinearOrderedField K] (fuel : Nat) :
    draw_open K fuel 0 = none := by
  cases fuel with
  | zero => rfl
  | succ fuel =>
    unfold draw_open
    simp only [rand_val_at_zero]
    rw [if_pos (Or.inr trivial)]
    exact draw_open_from_m K fuel

/-- When the rejection loop ends, the accepted value is neither 0 nor 1, and it
is the state on exit divided by `m`. -/
theorem draw_open_some (K : Type) [LinearOrderedField K] (fuel : Nat) :
    ∀ (x st1 : Int) (z : K), draw_open K fuel x = some (st1, z) →
      z ≠ 0 ∧ z ≠ 1 ∧ z = (st1 : K) / 2147483647 := by
  induction fuel with
  | zero =>
    intro x st1 z h
    simp [draw_open] at h
  | succ fuel ih =>
    intro x st1 z h
    unfold draw_open at h
    simp only at h
    split_ifs at h with hz
    · exact ih _ _ _ h
    · have e : rand_val K 0 x = (st1, z) := Option.some.inj h
      have e1 : (rand_val K 0 x).2 = z := by rw [e]
      have e2 : (rand_val K 0 x).1 = st1 := by rw [e]
      rw [e1] at hz
      refine ⟨fun h0 => hz (Or.inl h0), fun h1 => hz (Or.inr h1), ?_⟩
      rw [← e1, ← e2]
      exact rand_val_draw_value K x

theorem wrap32_of_range (v : Int) (h1 : -2147483648 ≤ v) (h2 : v ≤ 2147483647) :
    wrap32 v = v := by
  unfold wrap32
  omega

/-- The values of `draws` from a state in `[1, m - 1]` lie in `(0, 1)`. -/
theorem draws_values_open (K : Type) [LinearOrderedField K] (n : Nat) :
    ∀ x : Int, 1 ≤ x → x ≤ 2147483646 → ∀ z ∈ (draws K n x).2, 0 < z ∧ z < 1 := by
  induction n with
  | zero =>
    intro x _ _ z hz
    simp [draws] at hz
  | succ n ih =>
    intro x h1 h2 z hz
    rw [draws_succ] at hz
    simp only [List.mem_cons] at hz
    obtain ⟨ha, hb⟩ := rand_val_step_range K x h1 h2
    rcases hz with rfl | hz
    · exact rand_val_value_open K x h1 h2
    · exact ih _ ha hb z hz

theorem rand_valc_eq (K : Type) [LinearOrderedField K] (seed x : Int) :
    rand_valc K seed x = rand_val K seed x := rfl

theorem unifc_samples_eq (K : Type) [LinearOrderedField K] (min max : K) (n : Nat) :
    ∀ x : Int, unifc_samples K min max n x =
      (draws K n x).2.map (fun z => z * (max - min) + min) := by
  induction n with
  | zero => intro x; rfl
  | succ n ih =>
    intro x
    rw [draws_succ]
    simp only [unifc_samples, List.map_cons]
    rw [ih]
    rfl

/-! ## Lemmas on the transforms -/

/-- From a state in `[1, m - 1]` and with at least one iteration allowed,
`expon` returns after one draw. -/
theorem expon_of_range {K : Type} [LinearOrderedField K] (log : K → K) (fuel : Nat) (x : K)
    (st : Int) (hf : 1 ≤ fuel) (h1 : 1 ≤ st) (h2 : st ≤ 2147483646) :
    expon log fuel x st = some ((rand_val K 0 st).1, -x * log (rand_val K 0 st).2) := by
  simp only [expon, draw_open_of_range K fuel st hf h1 h2]

theorem pareto_of_range {K : Type} [LinearOrderedField K] (pow : K → K → K) (fuel : Nat)
    (a k : K) (st : Int) (hf : 1 ≤ fuel) (h1 : 1 ≤ st) (h2 : st ≤ 2147483646) :
    pareto pow fuel a k st =
      some ((rand_val K 0 st).1, pareto_rv pow a k (rand_val K 0 st).2) := by
  simp only [pareto, draw_open_of_range K fuel st hf h1 h2]

theorem hyper_of_range {K : Type} [LinearOrderedField K] (sqrt log : K → K) (fuel : Nat)
    (x cov : K) (st : Int) (hf : 1 ≤ fuel) (h1 : 1 ≤ st) (h2 : st ≤ 2147483646) :
    hyper sqrt log fuel x cov st =
      some ((rand_val K 0 (rand_val K 0 st).1).1,
        -0.5 * hyper_temp sqrt x cov (rand_val K 0 st).2 *
          log (rand_val K 0 (rand_val K 0 st).1).2) := by
  obtain ⟨ha, hb⟩ := rand_val_step_range K st h1 h2
  simp only [hyper, draw_open_of_range K fuel st hf h1 h2,
    draw_open_of_range K fuel _ hf ha hb]

/-- The inversion step of `pareto` over the reals is at least `k`. -/
theorem pareto_rv_ge (alpha k z : ℝ) (ha : 0 < alpha) (hk : 0 < k) (hz0 : 0 < z) (hz1 : z < 1) :
    k ≤ pareto_rv (fun b e : ℝ => b ^ e) alpha k z := by
  unfold pareto_rv
  have hp : 0 < z ^ ((1.0 : ℝ) / alpha) := Real.rpow_pos_of_pos hz0 _
  have hle : z ^ ((1.0 : ℝ) / alpha) ≤ 1 :=
    Real.rpow_le_one (le_of_lt hz0) (le_of_lt hz1) (by positivity)
  rw [le_div_iff₀ hp]
  nlinarith

/-- The first two draws after `rand_val(1)`. -/
theorem rand_val_first_two :
    rand_val ℝ 0 1 = (16807, 16807 / 2147483647) ∧
      rand_val ℝ 0 16807 = (282475249, 282475249 / 2147483647) := by
  constructor
  · refine Prod.ext ?_ ?_
    · exact rand_val_state_at 1 16807 (by decide) (by decide)
    · rw [rand_val_draw_value, rand_val_state_at 1 16807 (by decide) (by decide)]
      norm_num
  · refine Prod.ext ?_ ?_
    · exact rand_val_state_at 16807 282475249 (by decide) (by decide)
    · rw [rand_val_draw_value, rand_val_state_at 16807 282475249 (by decide) (by decide)]
      norm_num

/-- Bounds on the sum of the two logarithms of the first Erlang value. -/
theorem first_erlang_bounds :
    13 < -Real.log (16807 / 2147483647) - Real.log (282475249 / 2147483647) ∧
      -Real.log (16807 / 2147483647) - Real.log (282475249 / 2147483647) < 14 := by
  have e : -Real.log (16807 / 2147483647) - Real.log (282475249 / 2147483647) =
      -Real.log ((16807 / 2147483647) * (282475249 / 2147483647)) := by
    rw [Real.log_mul (by norm_num) (by norm_num)]
    ring
  rw [e]
  have hpos : (0 : ℝ) < (16807 / 2147483647) * (282475249 / 2147483647) := by norm_num
  have e13 : Real.exp 13 = Real.exp 1 ^ 13 := by
    rw [← Real.exp_nat_mul]
    norm_num
  have e14 : Real.exp 14 = Real.exp 1 ^ 14 := by
    rw [← Real.exp_nat_mul]
    norm_num
  have u13 : Real.exp 13 < 2.7182818286 ^ 13 := by
    rw [e13]
    exact pow_lt_pow_left₀ Real.exp_one_lt_d9 (le_of_lt (Real.exp_pos 1)) (by norm_num)
  have l14 : (2.7182818283 : ℝ) ^ 14 < Real.exp 14 := by
    rw [e14]
    exact pow_lt_pow_left₀ Real.exp_one_gt_d9 (by norm_num) (by norm_num)
  constructor
  · rw [lt_neg, Real.log_lt_iff_lt_exp hpos, Real.exp_neg]
    rw [lt_inv_comm₀ hpos (Real.exp_pos 13)]
    refine lt_trans u13 ?_
    norm_num
  · rw [neg_lt, Real.lt_log_iff_exp_lt hpos, Real.exp_neg]
    rw [inv_lt_comm₀ (Real.exp_pos 14) hpos]
    refine lt_trans ?_ l14
    norm_num

/-! ## Lemmas on `Generator31` as a map, on `randInt` and on the run of `genuniq.c` -/

/-- `Generator31` is injective on 31-bit values. -/
theorem Generator31_injective (a b : Nat) (ha : a < 2 ^ 31) (hb : b < 2 ^ 31)
    (h : (Generator31 a).1 = (Generator31 b).1) : a = b := by
  have hM : 2 ^ 31 - 1 = 2147483646 + 1 := by norm_num
  have pa := Generator31_period a ha
  have pb := Generator31_period b hb
  rw [hM, Function.iterate_succ_apply] at pa pb
  rw [← pa, ← pb, h]

theorem Generator31_zero : (Generator31 0).1 = 0 := by decide

/-- `Generator31` never produces 0 from a non-zero 31-bit state. -/
theorem Generator31_ne_zero (n : Nat) (h1 : 1 ≤ n) (h2 : n < 2 ^ 31) : (Generator31 n).1 ≠ 0 := by
  intro h
  have := Generator31_injective n 0 h2 (by norm_num) (by rw [h, Generator31_zero])
  omega

/-- The seeding call of `randInt` returns the first step from the seed. -/
theorem randInt_seed (s x0 : Int) (h1 : 1 ≤ s) (h2 : s ≤ 2147483646) :
    randInt s x0 = ((16807 * s) % 2147483647, (16807 * s) % 2147483647) := by
  have e := randInt_state s x0
  rw [if_pos (by omega), rand_val_step_eq ℚ s h1 h2] at e
  refine Prod.ext e ?_
  rw [randInt_value]
  exact e

theorem randInt_run_eq_draws (k : Nat) : ∀ x : Int, randInt_run k x = (draws ℚ k x).1 := by
  induction k with
  | zero => intro x; rfl
  | succ k ih =>
    intro x
    rw [randInt_run, draws_succ, ih, randInt_state]
    simp

/-- The state of `randInt` after `k` further calls, in closed form. -/
theorem randInt_run_closed_form (k : Nat) (x : Int) (h1 : 1 ≤ x) (h2 : x ≤ 2147483646) :
    randInt_run k x = (16807 ^ k * x) % 2147483647 := by
  rw [randInt_run_eq_draws, draws_state_closed_form ℚ k x h1 h2]

theorem randInt_run_range (k : Nat) (x : Int) (h1 : 1 ≤ x) (h2 : x ≤ 2147483647) :
    1 ≤ randInt_run k x ∧ randInt_run k x ≤ 2147483647 := by
  rw [randInt_run_eq_draws]
  exact draws_state_range_closed ℚ k x h1 h2

theorem randInt_run_succ (k : Nat) : ∀ x : Int,
    randInt_run (k + 1) x = (randInt 0 (randInt_run k x)).1 := by
  induction k with
  | zero => intro x; rfl
  | succ k ih =>
    intro x
    rw [randInt_run, ih]
    rfl

/-- The state before shuffle iteration `i`, and the index drawn there, after the
seeding call `randInt(s)`. -/
theorem shuffle_index_closed_form (s x0 : Int) (i num : Nat) (h1 : 1 ≤ s) (h2 : s ≤ 2147483646)
    (hnum : 1 ≤ num) :
    genuniq_shuffle_index num (randInt_run i (randInt s x0).1) =
      ((16807 ^ (i + 2) * s) % 2147483647) % (num : Int) := by
  have hs : (randInt s x0).1 = (16807 * s) % 2147483647 := by rw [randInt_seed s x0 h1 h2]
  have hr : 1 ≤ (randInt s x0).1 ∧ (randInt s x0).1 ≤ 2147483646 := by
    rw [randInt_state, if_pos (by omega)]
    exact rand_val_step_range ℚ s h1 h2
  have e : (randInt 0 (randInt_run i (randInt s x0).1)).2 =
      (16807 ^ (i + 2) * s) % 2147483647 := by
    rw [randInt_value, ← randInt_run_succ, randInt_run_closed_form _ _ hr.1 hr.2, hs,
      Int.mul_emod, Int.emod_emod, ← Int.mul_emod]
    congr 1
    ring
  unfold genuniq_shuffle_index
  rw [e]
  exact Int.tmod_eq_emod (Int.emod_nonneg _ (by norm_num)) (by omega)

/-- One iteration of the shuffle loop when the drawn index is inside the
array. -/
theorem genuniq_shuffle_step (count i : Nat) (z : List Int) (x : Int)
    (h0 : 0 ≤ genuniq_shuffle_index z.length x)
    (h1 : genuniq_shuffle_index z.length x < (z.length : Int)) :
    genuniq_shuffle (count + 1) i z x =
      genuniq_shuffle count (i + 1)
        (shuffle_swap z i (genuniq_shuffle_index z.length x).toNat) (randInt 0 x).1 := by
  unfold genuniq_shuffle_index at h0 h1 ⊢
  rw [genuniq_shuffle]
  rw [if_pos ⟨h0, h1⟩]

theorem shuffle_swap_length (z : List Int) (i j : Nat) :
    (shuffle_swap z i j).length = z.length := by
  simp [shuffle_swap]

/-- The index drawn from a state in `[1, m]` lies inside a non-empty array. -/
theorem genuniq_shuffle_index_range (num : Nat) (x : Int) (hnum : 1 ≤ num) (h1 : 1 ≤ x)
    (h2 : x ≤ 2147483647) :
    0 ≤ genuniq_shuffle_index num x ∧ genuniq_shuffle_index num x < (num : Int) := by
  obtain ⟨ha, _⟩ := randInt_range 0 x (Or.inr ⟨le_rfl, h1, h2⟩)
  unfold genuniq_shuffle_index
  exact ⟨Int.tmod_nonneg _ (by rw [randInt_value]; omega),
    Int.tmod_lt_of_pos _ (by exact_mod_cast hnum)⟩

/-- The shuffle loop run for `count` iterations and then one more: the extra
iteration starts in the state reached after `count` calls of `randInt(0)` and
exchanges with the index drawn there. -/
theorem genuniq_shuffle_last (count : Nat) :
    ∀ (i : Nat) (z : List Int) (x : Int), 1 ≤ z.length → 1 ≤ x → x ≤ 2147483647 →
      ∃ zc, genuniq_shuffle count i z x = some (zc, randInt_run count x) ∧
        zc.length = z.length ∧
        genuniq_shuffle (count + 1) i z x =
          some (shuffle_swap zc (i + count)
              (genuniq_shuffle_index z.length (randInt_run count x)).toNat,
            randInt_run (count + 1) x) := by
  induction count with
  | zero =>
    intro i z x hz h1 h2
    obtain ⟨j0, j1⟩ := genuniq_shuffle_index_range z.length x hz h1 h2
    refine ⟨z, rfl, rfl, ?_⟩
    rw [genuniq_shuffle_step 0 i z x j0 j1]
    rfl
  | succ count ih =>
    intro i z x hz h1 h2
    obtain ⟨j0, j1⟩ := genuniq_shuffle_index_range z.length x hz h1 h2
    obtain ⟨ha, hb⟩ := randInt_range 0 x (Or.inr ⟨le_rfl, h1, h2⟩)
    have hl := shuffle_swap_length z i (genuniq_shuffle_index z.length x).toNat
    obtain ⟨zc, e1, e2, e3⟩ := ih (i + 1)
      (shuffle_swap z i (genuniq_shuffle_index z.length x).toNat) (randInt 0 x).1
      (by rw [hl]; exact hz) ha hb
    rw [hl] at e2 e3
    refine ⟨zc, ?_, e2, ?_⟩
    · rw [genuniq_shuffle_step count i z x j0 j1, e1]
      rfl
    · rw [genuniq_shuffle_step (count + 1) i z x j0 j1, e3]
      rw [show i + 1 + count = i + (count + 1) by omega]
      rfl

/-! ## The uniform source: claims -/

/-- C1: for every state `x` with `1 ≤ x ≤ 2^31 - 2`, one draw `rand_val(0)`
(computed in Schrage form, with `m` added when `x_new` is not positive) leaves
the state equal to `(16807 * x) mod (2^31 - 1)`, the update of the
specification. -/
theorem C1_schrage_refines_lehmer (K : Type) [LinearOrderedField K] (x : Int)
    (h1 : 1 ≤ x) (h2 : x ≤ 2 ^ 31 - 2) :
    (rand_val K 0 x).1 = lehmer_spec x := by
  have h := rand_val_step_eq K x h1 (by norm_num at h2 ⊢; exact h2)
  rw [h, lehmer_spec]
  norm_num

theorem C1_schrage_refines_lehmer_witness :
    (1 : Int) ≤ 1000000 ∧ (1000000 : Int) ≤ 2 ^ 31 - 2 ∧
      (rand_val ℚ 0 1000000).1 = lehmer_spec 1000000 :=
  ⟨by decide, by decide, C1_schrage_refines_lehmer ℚ 1000000 (by decide) (by decide)⟩

/-- C2: seeding `rand_val` with 1 (from any earlier state `x0`) and then
drawing exactly 10000 times with `rand_val(0)` leaves the internal state `x`
equal to 1043618065. -/
theorem C2_calibration_10000 (K : Type) [LinearOrderedField K] (x0 : Int) :
    (draws K 10000 (rand_val K 1 x0).1).1 = 1043618065 := by
  rw [rand_val_seed_pos K 1 x0 (by norm_num)]
  rw [draws_state_closed_form K 10000 1 (by norm_num) (by norm_num)]
  norm_num

/-- C3: for every seed `s` with `1 ≤ s ≤ 2^31 - 2` and every `n ≥ 1`, the
`n`-th value returned by `rand_val(0)` after `rand_val(s)` exists, is the exact
quotient of the state by `m = 2^31 - 1`, and lies strictly between 0 and 1. -/
theorem C3_draw_in_open_unit_interval (s x0 : Int) (n : Nat)
    (h1 : 1 ≤ s) (h2 : s ≤ 2 ^ 31 - 2) (hn : 1 ≤ n) :
    ∃ z : ℚ, (draws ℚ n (rand_val ℚ s x0).1).2[n - 1]? = some z ∧
      z = ((draws ℚ n (rand_val ℚ s x0).1).1 : ℚ) / (2 ^ 31 - 1) ∧ 0 < z ∧ z < 1 := by
  have h2' : s ≤ 2147483646 := by norm_num at h2; exact h2
  rw [rand_val_seed_pos ℚ s x0 (by omega)]
  obtain ⟨k, rfl⟩ : ∃ k, n = k + 1 := ⟨n - 1, by omega⟩
  obtain ⟨ha, hb⟩ := draws_state_range ℚ (k + 1) s h1 h2'
  refine ⟨_, by simpa using draws_last_value ℚ k s, by norm_num, ?_, ?_⟩
  · have : (0 : ℚ) < ((draws ℚ (k + 1) s).1 : ℚ) := by exact_mod_cast (by omega : 0 < (draws ℚ (k + 1) s).1)
    positivity
  · rw [div_lt_one (by norm_num)]
    exact_mod_cast (by omega : (draws ℚ (k + 1) s).1 < 2147483647)

theorem C3_draw_in_open_unit_interval_witness :
    (1 : Int) ≤ 1 ∧ (1 : Int) ≤ 2 ^ 31 - 2 ∧ 1 ≤ 2 ∧ ∃ z : ℚ, (draws ℚ 2 (rand_val ℚ 1 0).1).2[2 - 1]? = some z ∧
      z = ((draws ℚ 2 (rand_val ℚ 1 0).1).1 : ℚ) / (2 ^ 31 - 1) ∧ 0 < z ∧ z < 1 :=
  ⟨by decide, by decide, by decide,
    C3_draw_in_open_unit_interval 1 0 2 (by decide) (by decide) (by decide)⟩

/-- C4, as stated, fails at the seed `s = 2^31 - 1`, which `rand_val(int)`
accepts: after seeding, the state is `m`, and one draw leaves it at `m`,
outside `[1, m - 1]`. -/
theorem C4_counterexample_seed_m :
    (rand_val ℚ 2147483647 0).1 = 2147483647 ∧
      (draws ℚ 1 (rand_val ℚ 2147483647 0).1).1 = 2147483647 ∧
      ¬ ((1 : Int) ≤ (draws ℚ 1 (rand_val ℚ 2147483647 0).1).1 ∧
          (draws ℚ 1 (rand_val ℚ 2147483647 0).1).1 ≤ 2147483647 - 1) := by
  have e1 : (rand_val ℚ 2147483647 0).1 = 2147483647 := by
    rw [rand_val_seed_pos ℚ _ _ (by norm_num)]
  have e2 : (draws ℚ 1 2147483647).1 = 2147483647 := by
    show (rand_val ℚ 0 2147483647).1 = 2147483647
    rw [rand_val_draw_state ℚ _ (by norm_num)]
    decide
  refine ⟨e1, by rw [e1]; exact e2, ?_⟩
  rw [e1, e2]
  decide

/-- C4, amended: for every seed `s` with `1 ≤ s ≤ 2^31 - 1`, immediately after
`rand_val(s)` the state equals `s`; after any number of subsequent draws the
state lies in `[1, m]`, and it lies in `[1, m - 1]` whenever `s ≤ 2^31 - 2`
(`m = 2^31 - 1`). -/
theorem C4_state_invariant (K : Type) [LinearOrderedField K] (s x0 : Int) (n : Nat)
    (h1 : 1 ≤ s) (h2 : s ≤ 2 ^ 31 - 1) :
    (rand_val K s x0).1 = s ∧
      1 ≤ (draws K n (rand_val K s x0).1).1 ∧
      (draws K n (rand_val K s x0).1).1 ≤ 2 ^ 31 - 1 ∧
      (s ≤ 2 ^ 31 - 2 → (draws K n (rand_val K s x0).1).1 ≤ 2 ^ 31 - 1 - 1) := by
  have h2' : s ≤ 2147483647 := by norm_num at h2; exact h2
  rw [rand_val_seed_pos K s x0 (by omega)]
  obtain ⟨ha, hb⟩ := draws_state_range_closed K n s h1 h2'
  refine ⟨rfl, ha, by norm_num; exact hb, ?_⟩
  intro h3
  have h3' : s ≤ 2147483646 := by norm_num at h3; exact h3
  have := (draws_state_range K n s h1 h3').2
  norm_num
  exact this

theorem C4_state_invariant_witness :
    (1 : Int) ≤ 12345 ∧ (12345 : Int) ≤ 2 ^ 31 - 1 ∧
      (rand_val ℚ 12345 0).1 = 12345 ∧
      1 ≤ (draws ℚ 7 (rand_val ℚ 12345 0).1).1 ∧
      (draws ℚ 7 (rand_val ℚ 12345 0).1).1 ≤ 2 ^ 31 - 1 - 1 :=
  ⟨by decide, by decide,
    (C4_state_invariant ℚ 12345 0 7 (by decide) (by decide)).1,
    (C4_state_invariant ℚ 12345 0 7 (by decide) (by decide)).2.1,
    (C4_state_invariant ℚ 12345 0 7 (by decide) (by decide)).2.2.2 (by decide)⟩

/-- C5, as stated, fails: `rand_val(0)` and `rand_val(-3)` called in state 1
return the value `16807 / 2147483647` (there is no error result) and change
the state from 1 to 16807. -/
theorem C5_counterexample_nonpositive_seed_draws :
    rand_val ℚ 0 1 = (16807, 16807 / 2147483647) ∧
      rand_val ℚ (-3) 1 = (16807, 16807 / 2147483647) ∧
      (rand_val ℚ 0 1).1 ≠ 1 ∧ (rand_val ℚ (-3) 1).1 ≠ 1 := by
  have e1 : rand_val ℚ 0 1 = (16807, 16807 / 2147483647) := by
    refine Prod.ext ?_ ?_
    · rw [rand_val_draw_state ℚ _ (by norm_num)]
      decide
    · rw [rand_val_draw_value, rand_val_draw_state ℚ _ (by norm_num)]
      norm_num
  have e2 : rand_val ℚ (-3) 1 = (16807, 16807 / 2147483647) := by
    rw [rand_val_nonpos_eq ℚ (-3) 1 (by norm_num), e1]
  refine ⟨e1, e2, ?_, ?_⟩
  · rw [e1]; decide
  · rw [e2]; decide

/-- C5, amended: a call `rand_val(s)` with `s ≤ 0` does not fail and does not
keep the state: it is the draw `rand_val(0)`, returning the new state divided
by `m`; from a state `x` with `1 ≤ x ≤ 2^31 - 2` the new state is
`(16807 * x) mod (2^31 - 1)`, which differs from `x`. -/
theorem C5_nonpositive_seed_is_a_draw (K : Type) [LinearOrderedField K] (s x : Int)
    (hs : s ≤ 0) :
    rand_val K s x = rand_val K 0 x ∧
      (rand_val K s x).2 = ((rand_val K s x).1 : K) / (2 ^ 31 - 1) ∧
      (1 ≤ x → x ≤ 2 ^ 31 - 2 →
        (rand_val K s x).1 = (16807 * x) % (2 ^ 31 - 1) ∧ (rand_val K s x).1 ≠ x) := by
  rw [rand_val_nonpos_eq K s x hs]
  refine ⟨rfl, ?_, ?_⟩
  · rw [rand_val_draw_value]
    norm_num
  · intro h1 h2
    have h2' : x ≤ 2147483646 := by norm_num at h2; exact h2
    refine ⟨?_, rand_val_step_ne K x h1 h2'⟩
    rw [rand_val_step_eq K x h1 h2']
    norm_num

theorem C5_nonpositive_seed_is_a_draw_witness :
    (-3 : Int) ≤ 0 ∧ rand_val ℚ (-3) 1 = rand_val ℚ 0 1 ∧
      (rand_val ℚ (-3) 1).2 = ((rand_val ℚ (-3) 1).1 : ℚ) / (2 ^ 31 - 1) ∧
      (rand_val ℚ (-3) 1).1 = (16807 * 1) % (2 ^ 31 - 1) ∧ (rand_val ℚ (-3) 1).1 ≠ 1 :=
  ⟨by decide,
    (C5_nonpositive_seed_is_a_draw ℚ (-3) 1 (by decide)).1,
    (C5_nonpositive_seed_is_a_draw ℚ (-3) 1 (by decide)).2.1,
    (C5_nonpositive_seed_is_a_draw ℚ (-3) 1 (by decide)).2.2 (by decide) (by decide)⟩

/-- C6: for every seed `s > 0`, every count `n` and any two prior generator
states `x1`, `x2`, calling `rand_val(s)` and then drawing `n` values gives the
same state after seeding, the same final state and the same list of `n`
values in both runs. -/
theorem C6_seeded_runs_agree (K : Type) [LinearOrderedField K] (s x1 x2 : Int) (n : Nat)
    (hs : 0 < s) :
    (rand_val K s x1).1 = (rand_val K s x2).1 ∧
      draws K n (rand_val K s x1).1 = draws K n (rand_val K s x2).1 ∧
      (draws K n (rand_val K s x1).1).2.length = n := by
  rw [rand_val_seed_pos K s x1 hs, rand_val_seed_pos K s x2 hs]
  exact ⟨rfl, rfl, draws_length K n s⟩

theorem C6_seeded_runs_agree_witness :
    (0 : Int) < 42 ∧ (rand_val ℚ 42 0).1 = (rand_val ℚ 42 977).1 ∧
      draws ℚ 3 (rand_val ℚ 42 0).1 = draws ℚ 3 (rand_val ℚ 42 977).1 ∧
      (draws ℚ 3 (rand_val ℚ 42 0).1).2.length = 3 :=
  ⟨by decide, C6_seeded_runs_agree ℚ 42 0 977 3 (by decide)⟩

/-! ## The Zipf sampler: claims -/

/-- C7: for every cumulative table `S[0..N]` (an array of `N + 1` doubles, so
`(N + 1) * 8` bytes are addressable) with `S[0] = 0`, `S` non-decreasing, and
every `z` with `0 < z ≤ S[N]`, the binary search of `zipf` ends within `N`
iterations in the `break` branch and yields the smallest index `i` of `1..N`
with `S[i] ≥ z`; that index also satisfies `S[i-1] < z`. -/
theorem C7_binary_search_finds_least_index {K : Type} [LinearOrderedField K]
    (S : Nat → K) (N : Nat) (z : K) (fuel : Nat)
    (hmem : (N + 1) * 8 < 2 ^ 64) (h0 : S 0 = 0)
    (hmono : ∀ i, i < N → S i ≤ S (i + 1)) (hz0 : 0 < z) (hz : z ≤ S N) (hf : N ≤ fuel) :
    ∃ i, zipf_search S z fuel 1 N = SearchResult.found i ∧ 1 ≤ i ∧ i ≤ N ∧
      S i ≥ z ∧ S (i - 1) < z ∧ ∀ j, 1 ≤ j → j ≤ N → S j ≥ z → i ≤ j := by
  obtain ⟨i, h1, h2, h3, h4, h5, h6⟩ :=
    zipf_search_spec S z N (by omega) hmono (by rw [h0]; exact hz0) hz fuel hf
  exact ⟨i, h1, h2, h3, h5, h4, fun j _ _ hj => h6 j hj⟩

theorem C7_binary_search_finds_least_index_witness :
    ∃ i, zipf_search (fun k : Nat => ((k : ℚ) / 4)) (1 / 2) 4 1 4 = SearchResult.found i ∧
      1 ≤ i ∧ i ≤ 4 ∧ (fun k : Nat => ((k : ℚ) / 4)) i ≥ 1 / 2 ∧
      (fun k : Nat => ((k : ℚ) / 4)) (i - 1) < 1 / 2 ∧
      ∀ j, 1 ≤ j → j ≤ 4 → (fun k : Nat => ((k : ℚ) / 4)) j ≥ 1 / 2 → i ≤ j :=
  C7_binary_search_finds_least_index (fun k : Nat => ((k : ℚ) / 4)) 4 (1 / 2) 4
    (by norm_num) (by norm_num)
    (fun i _ => by
      show (i : ℚ) / 4 ≤ ((i + 1 : Nat) : ℚ) / 4
      push_cast
      linarith)
    (by norm_num) (by norm_num) (by norm_num)

/-- C8: for every `alpha > 0`, every `N ≥ 1` (with the `N + 1` table entries
addressable) and every `z` with `0 < z < 1`, on the table of a first call
`zipf(alpha, N)` (exact real arithmetic, `pow` the real power) the search loop
ends in the `break` branch with `1 ≤ zipf_value ≤ N`; and a first call from a
generator state in `[1, 2^31 - 2]` passes the assertion and returns a value in
`[1, N]`. -/
theorem C8_zipf_returns_in_range (alpha : ℝ) (N : Nat) (sp0 : Nat → ℝ) (z : ℝ) (x0 : Int)
    (fuel : Nat) (halpha : 0 < alpha) (hN : 1 ≤ N) (hmem : (N + 1) * 8 < 2 ^ 64)
    (hz0 : 0 < z) (hz1 : z < 1) (hf : N ≤ fuel) :
    (∃ v, zipf_search
        (zipf_build (fun b e : ℝ => b ^ e) alpha N
          { first := true, c := 0, sum_probs := sp0, x := x0 }).sum_probs z fuel 1 N =
          SearchResult.found v ∧ 1 ≤ v ∧ v ≤ N) ∧
    (1 ≤ x0 → x0 ≤ 2 ^ 31 - 2 →
      ∃ v st1, zipf (fun b e : ℝ => b ^ e) fuel alpha N
          { first := true, c := 0, sum_probs := sp0, x := x0 } = Except.ok (v, st1) ∧
        1 ≤ v ∧ v ≤ N) := by
  have _ := halpha
  constructor
  · obtain ⟨t0, tm, tl⟩ :=
      zipf_first_table (fun b e : ℝ => b ^ e) alpha N sp0 x0 hN (rpow_nat_pos alpha N)
    obtain ⟨v, hs, hv1, hv2, _⟩ :=
      zipf_search_spec _ z N (by omega) tm (by rw [t0]; exact hz0)
        (by rw [tl]; exact le_of_lt hz1) fuel hf
    exact ⟨v, hs, hv1, hv2⟩
  · intro h1 h2
    obtain ⟨v, hv, hv1, hv2⟩ :=
      zipf_first_call (fun b e : ℝ => b ^ e) fuel alpha N sp0 x0 hN (by omega)
        (rpow_nat_pos alpha N) hf h1 (by norm_num at h2; exact h2)
    exact ⟨v, _, hv, hv1, hv2⟩

theorem C8_zipf_returns_in_range_witness :
    (∃ v, zipf_search
        (zipf_build (fun b e : ℝ => b ^ e) 1 1000
          { first := true, c := 0, sum_probs := fun _ => 0, x := 1 }).sum_probs (1 / 2) 1000 1 1000 =
          SearchResult.found v ∧ 1 ≤ v ∧ v ≤ 1000) ∧
    (∃ v st1, zipf (fun b e : ℝ => b ^ e) 1000 1 1000
          { first := true, c := 0, sum_probs := fun _ => 0, x := 1 } = Except.ok (v, st1) ∧
        1 ≤ v ∧ v ≤ 1000) :=
  ⟨(C8_zipf_returns_in_range 1 1000 (fun _ => 0) (1 / 2) 1 1000 (by norm_num) (by norm_num)
      (by norm_num) (by norm_num) (by norm_num) (by norm_num)).1,
    (C8_zipf_returns_in_range 1 1000 (fun _ => 0) (1 / 2) 1 1000 (by norm_num) (by norm_num)
      (by norm_num) (by norm_num) (by norm_num) (by norm_num)).2 (by norm_num) (by norm_num)⟩

/-- C9: after the build of a first call `zipf(alpha, N)` with `N ≥ 1`, in exact
real arithmetic, `c = C = 1 / sum_{j=1..N} 1/j^alpha`, `sum_probs[0] = 0`,
`sum_probs[i] = C * sum_{j=1..i} 1/j^alpha` for every `i` in `1..N`,
`sum_probs[N] = 1`, and the probabilities `C / i^alpha` sum to 1; a first call
from a generator state in `[1, 2^31 - 2]` returns with these statics. -/
theorem C9_zipf_table_after_first_call (alpha : ℝ) (N : Nat) (sp0 : Nat → ℝ) (x0 : Int)
    (hN : 1 ≤ N) :
    (zipf_build (fun b e : ℝ => b ^ e) alpha N
        { first := true, c := 0, sum_probs := sp0, x := x0 }).c =
      1 / ∑ j in Finset.Icc 1 N, 1 / (j : ℝ) ^ alpha ∧
    (zipf_build (fun b e : ℝ => b ^ e) alpha N
        { first := true, c := 0, sum_probs := sp0, x := x0 }).sum_probs 0 = 0 ∧
    (∀ i, 1 ≤ i → i ≤ N →
      (zipf_build (fun b e : ℝ => b ^ e) alpha N
          { first := true, c := 0, sum_probs := sp0, x := x0 }).sum_probs i =
        (1 / ∑ j in Finset.Icc 1 N, 1 / (j : ℝ) ^ alpha) *
          ∑ j in Finset.Icc 1 i, 1 / (j : ℝ) ^ alpha) ∧
    (zipf_build (fun b e : ℝ => b ^ e) alpha N
        { first := true, c := 0, sum_probs := sp0, x := x0 }).sum_probs N = 1 ∧
    ∑ i in Finset.Icc 1 N, (1 / ∑ j in Finset.Icc 1 N, 1 / (j : ℝ) ^ alpha) / (i : ℝ) ^ alpha = 1 ∧
    (∀ fuel, N ≤ fuel → (N + 1) * 8 < 2 ^ 64 → 1 ≤ x0 → x0 ≤ 2 ^ 31 - 2 →
      ∃ v st1, zipf (fun b e : ℝ => b ^ e) fuel alpha N
          { first := true, c := 0, sum_probs := sp0, x := x0 } = Except.ok (v, st1) ∧
        st1.first = false ∧
        st1.c = (zipf_build (fun b e : ℝ => b ^ e) alpha N
          { first := true, c := 0, sum_probs := sp0, x := x0 }).c ∧
        st1.sum_probs = (zipf_build (fun b e : ℝ => b ^ e) alpha N
          { first := true, c := 0, sum_probs := sp0, x := x0 }).sum_probs) := by
  have hpow := rpow_nat_pos alpha N
  obtain ⟨t0, _, tl⟩ := zipf_first_table (fun b e : ℝ => b ^ e) alpha N sp0 x0 hN hpow
  refine ⟨?_, t0, ?_, tl, ?_, ?_⟩
  · rw [zipf_build_first]
  · intro i _ hi
    rw [zipf_build_first]
    exact zipf_fill_entry (fun b e : ℝ => b ^ e) alpha N _ sp0 i hi
  · have hpos := zipf_weights_pos (fun b e : ℝ => b ^ e) alpha N hN hpow
    simp only [div_eq_mul_one_div (1 / ∑ j in Finset.Icc 1 N, 1 / (j : ℝ) ^ alpha)]
    rw [← Finset.mul_sum]
    exact one_div_mul_cancel (ne_of_gt hpos)
  · intro fuel hf hmem h1 h2
    obtain ⟨v, hv, _, _⟩ :=
      zipf_first_call (fun b e : ℝ => b ^ e) fuel alpha N sp0 x0 hN (by omega) hpow hf h1
        (by norm_num at h2; exact h2)
    refine ⟨v, _, hv, ?_, rfl, rfl⟩
    rw [zipf_build_first]


/-- C9 at `alpha = 1`, `N = 2`. -/
theorem C9_zipf_table_after_first_call_witness :
    1 ≤ 2 ∧
    (zipf_build (fun b e : ℝ => b ^ e) 1 2
        { first := true, c := 0, sum_probs := fun _ => 0, x := 1 }).c =
      1 / ∑ j in Finset.Icc (1 : Nat) 2, 1 / ((j : Nat) : ℝ) ^ (1 : ℝ) ∧
    (zipf_build (fun b e : ℝ => b ^ e) 1 2
        { first := true, c := 0, sum_probs := fun _ => 0, x := 1 }).sum_probs 0 = 0 ∧
    (zipf_build (fun b e : ℝ => b ^ e) 1 2
        { first := true, c := 0, sum_probs := fun _ => 0, x := 1 }).sum_probs 2 = 1 :=
  ⟨by decide,
    (C9_zipf_table_after_first_call 1 2 (fun _ => 0) 1 (by decide)).1,
    (C9_zipf_table_after_first_call 1 2 (fun _ => 0) 1 (by decide)).2.1,
    (C9_zipf_table_after_first_call 1 2 (fun _ => 0) 1 (by decide)).2.2.2.1⟩

set_option maxRecDepth 100000 in
/-- C10: with seed 1, `alpha = 1.0` and `N = 1000` (table and comparisons in
exact real arithmetic), five successive calls `zipf(1.0, 1000)` from the
initial statics return 1, 1, 161, 17, 30 in that order, for every loop budget
of at least 1000 iterations. -/
theorem C10_zipf_first_five_values (fuel : Nat) (x00 : Int) (hf : 1000 ≤ fuel) :
    ∃ st, zipf_main (fun b e : ℝ => b ^ e) fuel 1 1000 5
        (zipf_init ℝ (rand_val ℝ 1 x00).1) = Except.ok ([1, 1, 161, 17, 30], st) := by
  rw [rand_val_seed_pos ℝ 1 x00 (by norm_num)]
  have c1 := zipf_one_call fuel hf (zipf_init ℝ 1) (fun _ => 0) 1
    (by rw [zipf_init, zipf_build_first]) 1 16807 (by decide) (by decide)
    (rand_val_state_at _ _ (by decide) (by decide)) (by decide) (by decide) (by decide!)
  have c2 := zipf_one_call fuel hf _ (fun _ => 0) 1
    (zipf_build_again _ 1 1000 (fun _ => 0) 1 ((16807 : Nat) : Int)) 1 282475249
    (by decide) (by decide)
    (rand_val_state_at _ _ (by decide) (by decide)) (by decide) (by decide) (by decide!)
  have c3 := zipf_one_call fuel hf _ (fun _ => 0) 1
    (zipf_build_again _ 1 1000 (fun _ => 0) 1 ((282475249 : Nat) : Int)) 161 1622650073
    (by decide) (by decide)
    (rand_val_state_at _ _ (by decide) (by decide)) (by decide) (by decide) (by decide!)
  have c4 := zipf_one_call fuel hf _ (fun _ => 0) 1
    (zipf_build_again _ 1 1000 (fun _ => 0) 1 ((1622650073 : Nat) : Int)) 17 984943658
    (by decide) (by decide)
    (rand_val_state_at _ _ (by decide) (by decide)) (by decide) (by decide) (by decide!)
  have c5 := zipf_one_call fuel hf _ (fun _ => 0) 1
    (zipf_build_again _ 1 1000 (fun _ => 0) 1 ((984943658 : Nat) : Int)) 30 1144108930
    (by decide) (by decide)
    (rand_val_state_at _ _ (by decide) (by decide)) (by decide) (by decide) (by decide!)
  refine ⟨{ zipf_build (fun b e : ℝ => b ^ e) 1 1000
      { first := true, c := 0, sum_probs := fun _ => 0, x := 1 } with
      x := ((1144108930 : Nat) : Int) }, ?_⟩
  simp only [zipf_main, c1, c2, c3, c4, c5]

theorem C10_zipf_first_five_values_witness :
    1000 ≤ 1000 ∧
    ∃ st, zipf_main (fun b e : ℝ => b ^ e) 1000 1 1000 5
        (zipf_init ℝ (rand_val ℝ 1 0).1) = Except.ok ([1, 1, 161, 17, 30], st) :=
  ⟨by decide, C10_zipf_first_five_values 1000 0 (by decide)⟩


/-- C11, as stated, fails: after a first call `zipf(1.0, 1)` (generator state
16807), the call `zipf(1.0, 2)` returns 1, read from the table of the first
call, although on the table for `(1.0, 2)` the same draw gives 2. -/
theorem C11_counterexample_table_not_rebuilt :
    (match zipf (fun (b _ : ℚ) => b) 10 1 1 (zipf_init ℚ 16807) with
      | Except.ok (v1, st1) =>
        (some v1, zipf_value_of (zipf (fun (b _ : ℚ) => b) 10 1 2 st1),
          zipf_value_of (zipf (fun (b _ : ℚ) => b) 10 1 2 (zipf_init ℚ st1.x)))
      | Except.error _ => (none, none, none)) = (some 1, some 1, some 2) := by
  decide!

/-- C11, amended: the table is built by the first call only.  Once
`first = FALSE`, a call `zipf(alpha, n)` with any arguments skips the build
block, its outcome is the same for every `alpha`, and when it returns the
statics `first`, `c` and `sum_probs` are those found on entry. -/
theorem C11_table_built_on_first_call_only {K : Type} [LinearOrderedField K]
    (pow : K → K → K) (fuel : Nat) (alpha : K) (n : Nat) (st : ZipfState K)
    (h : st.first = false) :
    zipf_build pow alpha n st = st ∧
      (∀ alpha2 : K, zipf pow fuel alpha n st = zipf pow fuel alpha2 n st) ∧
      ∀ v st1, zipf pow fuel alpha n st = Except.ok (v, st1) →
        st1.first = false ∧ st1.c = st.c ∧ st1.sum_probs = st.sum_probs :=
  ⟨zipf_build_built pow alpha n st h, zipf_built_call pow fuel alpha n st h⟩

theorem C11_table_built_on_first_call_only_witness :
    zipf_build (fun (b _ : ℚ) => b) 1 2
        { first := false, c := 1, sum_probs := fun i => if i = 0 then 0 else 1, x := 16807 } =
      { first := false, c := 1, sum_probs := fun i => if i = 0 then 0 else 1, x := 16807 } :=
  (C11_table_built_on_first_call_only (fun (b _ : ℚ) => b) 10 1 2
    { first := false, c := 1, sum_probs := fun i => if i = 0 then 0 else 1, x := 16807 } rfl).1

/-- C12: for every `N ≥ 1` and `0 < alpha1 ≤ alpha2`, the entry `S[1]` of the
table built for `alpha1` is at most the entry `S[1]` built for `alpha2`; and
every `z` that the search maps to 1 on the table for `alpha1` is mapped to 1 on
the table for `alpha2` (for every loop budget of at least `N`). -/
theorem C12_mass_of_one_monotone_in_alpha (alpha1 alpha2 : ℝ) (N : Nat) (sp1 sp2 : Nat → ℝ)
    (x1 x2 : Int) (h1 : 0 < alpha1) (h12 : alpha1 ≤ alpha2) (hN : 1 ≤ N)
    (hmem : (N + 1) * 8 < 2 ^ 64) :
    (zipf_build (fun b e : ℝ => b ^ e) alpha1 N
        { first := true, c := 0, sum_probs := sp1, x := x1 }).sum_probs 1 ≤
      (zipf_build (fun b e : ℝ => b ^ e) alpha2 N
        { first := true, c := 0, sum_probs := sp2, x := x2 }).sum_probs 1 ∧
    ∀ (z : ℝ) (fuel1 fuel2 : Nat), N ≤ fuel2 →
      zipf_search (zipf_build (fun b e : ℝ => b ^ e) alpha1 N
        { first := true, c := 0, sum_probs := sp1, x := x1 }).sum_probs z fuel1 1 N =
          SearchResult.found 1 →
      zipf_search (zipf_build (fun b e : ℝ => b ^ e) alpha2 N
        { first := true, c := 0, sum_probs := sp2, x := x2 }).sum_probs z fuel2 1 N =
          SearchResult.found 1 := by
  have _ := h1
  have hm := zipf_first_entry_mono alpha1 alpha2 h12 N hN sp1 sp2 x1 x2
  refine ⟨hm, ?_⟩
  intro z fuel1 fuel2 hf hs
  obtain ⟨ha, hb⟩ := zipf_search_found _ z fuel1 1 N 1 hs
  obtain ⟨t0, _, _⟩ :=
    zipf_first_table (fun b e : ℝ => b ^ e) alpha1 N sp1 x1 hN (rpow_nat_pos alpha1 N)
  obtain ⟨u0, um, ul⟩ :=
    zipf_first_table (fun b e : ℝ => b ^ e) alpha2 N sp2 x2 hN (rpow_nat_pos alpha2 N)
  have e0 : (1 + (2 ^ 64 - 1)) % 2 ^ 64 = 0 := by norm_num
  rw [e0, t0] at hb
  have hz1 : z ≤ (zipf_build (fun b e : ℝ => b ^ e) alpha2 N
      { first := true, c := 0, sum_probs := sp2, x := x2 }).sum_probs 1 := le_trans ha hm
  have hzN : z ≤ (zipf_build (fun b e : ℝ => b ^ e) alpha2 N
      { first := true, c := 0, sum_probs := sp2, x := x2 }).sum_probs N :=
    le_trans hz1 (table_mono_of_adjacent _ N um 1 N hN le_rfl)
  exact zipf_search_eq_of_bracket _ z N (by omega) um (by rw [u0]; exact hb) hzN fuel2 hf 1 hN
    (by rw [u0]; exact hb) hz1

theorem C12_mass_of_one_monotone_in_alpha_witness :
    (0 : ℝ) < 1 ∧ (1 : ℝ) ≤ 2 ∧ 1 ≤ 3 ∧ (3 + 1) * 8 < 2 ^ 64 ∧
    (zipf_build (fun b e : ℝ => b ^ e) 1 3
        { first := true, c := 0, sum_probs := fun _ => 0, x := 1 }).sum_probs 1 ≤
      (zipf_build (fun b e : ℝ => b ^ e) 2 3
        { first := true, c := 0, sum_probs := fun _ => 0, x := 1 }).sum_probs 1 :=
  ⟨by norm_num, by norm_num, by norm_num, by norm_num,
    (C12_mass_of_one_monotone_in_alpha 1 2 3 (fun _ => 0) (fun _ => 0) 1 1 (by norm_num)
      (by norm_num) (by norm_num) (by norm_num)).1⟩


/-! ## The empirical table: claims -/

/-- C13: for every table `CDF[0..Num_entries]` and every `z`, when `i` is the
first index of `0..Num_entries` with `z ≤ CDF[i].cdf_val`, the scan of `emp`
yields `CDF[i].rv_val`; so does `emp()` when its draw is `z`. -/
theorem C13_emp_returns_first_reaching_entry {K : Type} [LinearOrderedField K]
    (st : EmpState K) (z : K) (i : Nat) (hi : i ≤ st.Num_entries)
    (hz : z ≤ (st.CDF i).cdf_val) (hfirst : ∀ j, j < i → ¬ z ≤ (st.CDF j).cdf_val) :
    emp_scan st.CDF z (st.Num_entries + 1) 0 = some (st.CDF i).rv_val ∧
      ((rand_val K 0 st.x).2 = z → (emp st).1 = some (st.CDF i).rv_val) := by
  have h := emp_scan_first st.CDF z (st.Num_entries + 1) 0 i (Nat.zero_le _) (by omega) hz
    (fun j _ hj => hfirst j hj)
  refine ⟨h, ?_⟩
  intro hd
  simp only [emp, hd]
  exact h

theorem C13_emp_returns_first_reaching_entry_witness :
    emp_scan (fun i => if i = 0 then ({ cdf_val := 1 / 4, rv_val := 5 } : rv ℚ)
        else { cdf_val := 1, rv_val := 2 }) (1 / 2) (1 + 1) 0 = some 2 :=
  (C13_emp_returns_first_reaching_entry
    { CDF := fun i => if i = 0 then ({ cdf_val := 1 / 4, rv_val := 5 } : rv ℚ)
        else { cdf_val := 1, rv_val := 2 },
      Num_entries := 1, x := 1 } (1 / 2) 1 (by decide) (by norm_num)
    (fun j hj => by
      have : j = 0 := by omega
      subst this
      norm_num)).1

/-- C15, as stated, fails: the one-line table with probability
`1 + 1/2000000`, whose final cumulative value is within `1e-6` of 1.0, is
rejected; no addition takes place in its build, so it is rejected under the
rounded addition of doubles as well. -/
theorem C15_counterexample_exact_comparison :
    |((1 : ℚ) + 1 / 2000000) - 1| ≤ 1 / 1000000 ∧
      emp_load (fun _ => ({ cdf_val := 0, rv_val := 0 } : rv ℚ)) (1 + 1 / 2000000, 5) [] =
        Except.error EmpFailure.sumNotOne ∧
      emp_load_add double_sum (fun _ => ({ cdf_val := 0, rv_val := 0 } : rv ℚ))
          (1 + 1 / 2000000, 5) [] =
        Except.error EmpFailure.sumNotOne := by
  refine ⟨?_, ?_, ?_⟩
  · norm_num [abs_le]
  · simp [emp_load, emp_build]
  · simp [emp_load_add, emp_build_add]

/-- C15, amended: for a file of at most `MAX_ENTRY` lines, and whatever the
addition of doubles is, the build accepts the table exactly when the stored
final cumulative value `CDF[Num_entries].cdf_val`, the running sum of the
probabilities as the program adds them in input order, equals 1.0, with no
tolerance.  Then `main` goes on to the sampling loop with this table;
otherwise `main` stops with the error exit of the check and no sample is
drawn. -/
theorem C15_emp_validation_is_exact {K : Type} [LinearOrderedField K] (add : K → K → K)
    (CDF0 : Nat → rv K) (first : K × K) (rest : List (K × K))
    (hlen : rest.length < MAX_ENTRY) :
    ∃ CDF, emp_build_add add CDF0 first rest = some (CDF, rest.length) ∧
      (CDF 0).cdf_val = first.1 ∧
      (∀ i, i < rest.length →
        (rest[i]?).map (fun l => add l.1 (CDF i).cdf_val) = some (CDF (i + 1)).cdf_val) ∧
      ((CDF rest.length).cdf_val = 1 →
        emp_load_add add CDF0 first rest = Except.ok (CDF, rest.length) ∧
        ∀ (x0 seed : Int) (num_samples : Nat),
          emp_main_add add CDF0 x0 first rest seed num_samples =
            Except.ok (emp_samples num_samples
              { CDF := CDF, Num_entries := rest.length, x := (rand_val K seed x0).1 })) ∧
      ((CDF rest.length).cdf_val ≠ 1 →
        emp_load_add add CDF0 first rest = Except.error EmpFailure.sumNotOne ∧
        ∀ (x0 seed : Int) (num_samples : Nat),
          emp_main_add add CDF0 x0 first rest seed num_samples =
            Except.error EmpFailure.sumNotOne) := by
  obtain ⟨CDF, hb, h0, hc⟩ := emp_build_add_spec add CDF0 first rest hlen
  refine ⟨CDF, hb, h0, hc, ?_, ?_⟩
  · intro h
    have hl : emp_load_add add CDF0 first rest = Except.ok (CDF, rest.length) := by
      simp only [emp_load_add, hb]
      rw [if_neg (not_not.mpr h)]
    refine ⟨hl, ?_⟩
    intro x0 seed num_samples
    simp only [emp_main_add, hl]
  · intro h
    have hl : emp_load_add add CDF0 first rest = Except.error EmpFailure.sumNotOne := by
      simp only [emp_load_add, hb]
      rw [if_pos h]
    refine ⟨hl, ?_⟩
    intro x0 seed num_samples
    simp only [emp_main_add, hl]

/-- The table of the doubles nearest to 0.7, 0.2 and 0.1, in this order, under
the rounded addition of doubles: the stored cumulative values are
0.7, 0.8999999999999999 and 0.9999999999999999, and the table is rejected. -/
theorem C15_emp_validation_is_exact_witness :
    ([((3602879701896397 : ℚ) / 2 ^ 54, (2 : ℚ)), (3602879701896397 / 2 ^ 55, 3)] :
        List (ℚ × ℚ)).length < MAX_ENTRY ∧
      emp_load_add double_sum (fun _ => ({ cdf_val := 0, rv_val := 0 } : rv ℚ))
          (3152519739159347 / 2 ^ 52, 1)
          [(3602879701896397 / 2 ^ 54, 2), (3602879701896397 / 2 ^ 55, 3)] =
        Except.error EmpFailure.sumNotOne := by
  refine ⟨by decide, ?_⟩
  obtain ⟨CDF, _, h0, hc, _, hrej⟩ :=
    C15_emp_validation_is_exact double_sum (fun _ => ({ cdf_val := 0, rv_val := 0 } : rv ℚ))
      (3152519739159347 / 2 ^ 52, 1)
      [(3602879701896397 / 2 ^ 54, 2), (3602879701896397 / 2 ^ 55, 3)] (by decide)
  refine (hrej ?_).1
  have h1 := hc 0 (by decide)
  have h2 := hc 1 (by decide)
  simp only [List.getElem?_cons_zero, List.getElem?_cons_succ, Option.map_some',
    Option.some.injEq] at h1 h2
  show (CDF 2).cdf_val ≠ 1
  rw [← h2, ← h1, h0]
  decide!

/-- C16: for the table (0.25,5.0), (0.45,2.0), (0.15,1.0), (0.10,0.5),
(0.05,0.25) and seed 1, the first five values returned by `emp()` are
5.0, 5.0, 1.0, 2.0, 2.0 in that order, each a member of
{5.0, 2.0, 1.0, 0.5, 0.25}. -/
theorem C16_emp_example_values (x0 : Int) :
    emp_main (fun _ => ({ cdf_val := 0, rv_val := 0 } : rv ℚ)) x0 (0.25, 5.0)
        [(0.45, 2.0), (0.15, 1.0), (0.10, 0.5), (0.05, 0.25)] 1 5 =
      Except.ok [some 5.0, some 5.0, some 1.0, some 2.0, some 2.0] ∧
    ∀ v ∈ ([5.0, 5.0, 1.0, 2.0, 2.0] : List ℚ), v ∈ ([5.0, 2.0, 1.0, 0.5, 0.25] : List ℚ) := by
  constructor
  · rw [emp_main_seed _ x0 0 _ _ 1 5 (by decide)]
    exact except_eq_ok_of_toOption (by decide!)
  · decide!

/-- C17, as stated, fails: the two-line table with probabilities `3/2` and
`-1/2` passes the check (final cumulative value 1.0) with cumulative values
`3/2, 1`, which decrease. -/
theorem C17_counterexample_negative_probability :
    (emp_load (fun _ => ({ cdf_val := 0, rv_val := 0 } : rv ℚ)) (3 / 2, 1)
        [(-1 / 2, 2)]).toOption.map (fun t => emp_cdf_list t.1 t.2) = some [3 / 2, 1] ∧
      ¬ ((3 : ℚ) / 2 ≤ 1) := by
  constructor
  · decide!
  · norm_num

/-- C17, amended: for every table of at most `MAX_ENTRY` lines whose input
probabilities after the first are all non-negative, the cumulative
probabilities `CDF[0].cdf_val, ..., CDF[Num_entries].cdf_val` of the built
table are non-decreasing; a table that passes the check of the build is this
table, with the stored final cumulative value 1.0. -/
theorem C17_emp_cdf_nondecreasing {K : Type} [LinearOrderedField K] (CDF0 : Nat → rv K)
    (first : K × K) (rest : List (K × K)) (hlen : rest.length < MAX_ENTRY)
    (hp : ∀ l ∈ rest, 0 ≤ l.1) :
    ∃ CDF, emp_build CDF0 first rest = some (CDF, rest.length) ∧
      (∀ i, i < rest.length → (CDF i).cdf_val ≤ (CDF (i + 1)).cdf_val) ∧
      (∀ T, emp_load CDF0 first rest = Except.ok T →
        T = (CDF, rest.length) ∧ (CDF rest.length).cdf_val = 1) := by
  obtain ⟨CDF, hb, _, _, hc⟩ := emp_build_spec CDF0 first rest hlen
  refine ⟨CDF, hb, fun i hi => emp_build_mono rest CDF hc hp i hi, ?_⟩
  intro T hT
  simp only [emp_load, hb] at hT
  by_cases h : (CDF rest.length).cdf_val = 1
  · rw [if_neg (not_not.mpr h)] at hT
    cases hT
    exact ⟨rfl, h⟩
  · rw [if_pos h] at hT
    cases hT

theorem C17_emp_cdf_nondecreasing_witness :
    ([((9 : ℚ) / 20, (2 : ℚ)), (3 / 10, 1)] : List (ℚ × ℚ)).length < MAX_ENTRY ∧
    (∀ l ∈ ([((9 : ℚ) / 20, (2 : ℚ)), (3 / 10, 1)] : List (ℚ × ℚ)), 0 ≤ l.1) ∧
    ∃ CDF, emp_build (fun _ => ({ cdf_val := 0, rv_val := 0 } : rv ℚ)) (1 / 4, 5)
        [(9 / 20, 2), (3 / 10, 1)] = some (CDF, 2) ∧
      (∀ i, i < 2 → (CDF i).cdf_val ≤ (CDF (i + 1)).cdf_val) ∧
      (∀ T, emp_load (fun _ => ({ cdf_val := 0, rv_val := 0 } : rv ℚ)) (1 / 4, 5)
          [(9 / 20, 2), (3 / 10, 1)] = Except.ok T → T = (CDF, 2) ∧ (CDF 2).cdf_val = 1) :=
  ⟨by decide, by decide!,
    C17_emp_cdf_nondecreasing _ (1 / 4, 5) [(9 / 20, 2), (3 / 10, 1)] (by decide) (by decide!)⟩

/-! ## The unique-integer generator: claims -/

/-- C18: starting from the initial state `n = 1`, the first `2^31 - 1` values
returned by `Generator31` are pairwise distinct; hence for every
`num ≤ 2^31 - 1` the `num` values placed in the array before shuffling are
pairwise distinct. -/
theorem C18_generator31_values_distinct :
    (∀ i j : Nat, 1 ≤ i → i < j → j ≤ 2 ^ 31 - 1 →
      (Generator31 (Generator31_run (i - 1) 1)).2 ≠ (Generator31 (Generator31_run (j - 1) 1)).2) ∧
    ∀ num : Nat, num ≤ 2 ^ 31 - 1 → (genuniq_fill num 1).1.Nodup := by
  have hval : ∀ k : Nat, 1 ≤ k →
      (Generator31 (Generator31_run (k - 1) 1)).2 = Generator31_run k 1 := by
    intro k hk
    obtain ⟨t, rfl⟩ : ∃ t, k = t + 1 := ⟨k - 1, by omega⟩
    rw [Generator31_run_succ, Generator31_snd, Nat.add_sub_cancel]
  constructor
  · intro i j hi hij hj
    rw [hval i hi, hval j (by omega)]
    exact Generator31_run_injective i j hi hij hj
  · intro num hnum
    rw [genuniq_fill_eq]
    apply List.Nodup.map_on _ (List.nodup_range num)
    intro a ha b hb hab
    have ha' := List.mem_range.mp ha
    have hb' := List.mem_range.mp hb
    have hab' : Generator31_run (a + 1) 1 = Generator31_run (b + 1) 1 := by exact_mod_cast hab
    by_contra hne
    rcases Nat.lt_or_gt_of_ne hne with h | h
    · exact Generator31_run_injective (a + 1) (b + 1) (by omega) (by omega) (by omega) hab'
    · exact Generator31_run_injective (b + 1) (a + 1) (by omega) (by omega) (by omega) hab'.symm

theorem C18_generator31_values_distinct_witness :
    (Generator31 (Generator31_run (1 - 1) 1)).2 ≠ (Generator31 (Generator31_run (2 - 1) 1)).2 ∧
      (genuniq_fill 3 1).1.Nodup :=
  ⟨C18_generator31_values_distinct.1 1 2 (by decide) (by decide) (by decide),
    C18_generator31_values_distinct.2 3 (by decide)⟩

/-- C19: for every array `z` of length `num ≥ 1` and every seed `s > 0` (an
`int`), the shuffle loop started after `randInt(s)` stays inside the array and
ends with an array of the same length that is a permutation of `z`. -/
theorem C19_shuffle_is_permutation (z : List Int) (s x0 : Int) (hnum : 1 ≤ z.length)
    (hs : 0 < s) (hint : s ≤ 2 ^ 31 - 1) :
    ∃ z1 x1, genuniq_shuffle z.length 0 z (randInt s x0).1 = some (z1, x1) ∧
      z1.length = z.length ∧ z1.Perm z := by
  have _ := hnum
  obtain ⟨ha, hb⟩ := randInt_range s x0 (Or.inl ⟨hs, by norm_num at hint; exact hint⟩)
  obtain ⟨z1, x1, h1, h2, _⟩ :=
    genuniq_shuffle_perm z.length 0 z (randInt s x0).1 ha hb (by omega)
  exact ⟨z1, x1, h1, h2.length_eq, h2⟩

theorem C19_shuffle_is_permutation_witness :
    1 ≤ ([10, 20, 30] : List Int).length ∧ (0 : Int) < 1 ∧ (1 : Int) ≤ 2 ^ 31 - 1 ∧
    ∃ z1 x1, genuniq_shuffle ([10, 20, 30] : List Int).length 0 [10, 20, 30] (randInt 1 0).1 =
        some (z1, x1) ∧
      z1.length = ([10, 20, 30] : List Int).length ∧ z1.Perm [10, 20, 30] :=
  ⟨by decide, by decide, by decide,
    C19_shuffle_is_permutation [10, 20, 30] 1 0 (by decide) (by decide) (by decide)⟩

/-- C21, as stated, fails: with `num = 0` and a `malloc` that returns a non-null
pointer for a request of 0 bytes, `main` of `genuniq.c` reports no error and
writes the empty sequence. -/
theorem C21_counterexample_zero_count_gives_empty_output :
    genuniq_main (fun _ => false) 1 0 0 1 = Except.ok [] :=
  except_eq_ok_of_toOption (by decide)

/-- C21, amended: a count `num ≤ 0` is not checked.  `main` stops with the
`malloc` error exit when `malloc(num * sizeof(int))` returns `NULL` and
otherwise runs both loops zero times and writes the empty sequence; for a
negative `int` count the request is at least `2^64 - 2^33` bytes. -/
theorem C21_nonpositive_count_is_not_checked (malloc_null : Nat → Bool) (seed num x0 : Int)
    (n0 : Nat) (h : num ≤ 0) :
    genuniq_main malloc_null seed num x0 n0 =
        (if malloc_null ((num * 4) % 2 ^ 64).toNat = true
          then Except.error GenuniqFailure.mallocFailed else Except.ok []) ∧
      (-2 ^ 31 ≤ num → num < 0 → 2 ^ 64 - 2 ^ 33 ≤ ((num * 4) % 2 ^ 64).toNat) := by
  constructor
  · have e : num.toNat = 0 := Int.toNat_eq_zero.mpr h
    simp only [genuniq_main, e, genuniq_fill, genuniq_shuffle]
  · intro h1 h2
    omega

theorem C21_nonpositive_count_is_not_checked_witness :
    (-5 : Int) ≤ 0 ∧
      genuniq_main (fun b => decide (2 ^ 40 ≤ b)) 1 (-5) 0 1 =
        (if (fun b => decide (2 ^ 40 ≤ b)) (((-5 : Int) * 4) % 2 ^ 64).toNat = true
          then Except.error GenuniqFailure.mallocFailed else Except.ok []) :=
  ⟨by decide, (C21_nonpositive_count_is_not_checked (fun b => decide (2 ^ 40 ≤ b)) 1 (-5) 0 1
    (by decide)).1⟩


/-! ## The transforms: claims -/

/-- C22: whenever `expon`, `hyper` or `pareto` returns, the uniform value it
passes on (`z` to `log` in `expon`, `z2` to `log` and `z1` to the branch in
`hyper`, `z` to `pow` in `pareto`) is neither 0 nor 1, so `log(0)` is never
computed; and from every generator state in `[1, 2^31 - 2]` the three
functions do return. -/
theorem C22_transforms_reject_zero_and_one {K : Type} [LinearOrderedField K]
    (sqrt log : K → K) (pow : K → K → K) (fuel : Nat) (x cov a k : K) (st st1 : Int) (v : K) :
    (expon log fuel x st = some (st1, v) → ∃ z, z ≠ 0 ∧ z ≠ 1 ∧ v = -x * log z) ∧
    (hyper sqrt log fuel x cov st = some (st1, v) →
      ∃ z1 z2, z1 ≠ 0 ∧ z1 ≠ 1 ∧ z2 ≠ 0 ∧ z2 ≠ 1 ∧
        v = -0.5 * hyper_temp sqrt x cov z1 * log z2) ∧
    (pareto pow fuel a k st = some (st1, v) → ∃ z, z ≠ 0 ∧ z ≠ 1 ∧ v = pareto_rv pow a k z) ∧
    (1 ≤ fuel → 1 ≤ st → st ≤ 2 ^ 31 - 2 →
      (expon log fuel x st).isSome = true ∧ (hyper sqrt log fuel x cov st).isSome = true ∧
        (pareto pow fuel a k st).isSome = true) := by
  refine ⟨?_, ?_, ?_, ?_⟩
  · intro h
    unfold expon at h
    split at h
    · cases h
    · rename_i s1 z hd
      obtain ⟨h0, h1, _⟩ := draw_open_some K fuel st s1 z hd
      cases h
      exact ⟨z, h0, h1, rfl⟩
  · intro h
    unfold hyper at h
    split at h
    · cases h
    · rename_i s1 z1 hd1
      split at h
      · cases h
      · rename_i s2 z2 hd2
        obtain ⟨a0, a1, _⟩ := draw_open_some K fuel st s1 z1 hd1
        obtain ⟨b0, b1, _⟩ := draw_open_some K fuel s1 s2 z2 hd2
        cases h
        exact ⟨z1, z2, a0, a1, b0, b1, rfl⟩
  · intro h
    unfold pareto at h
    split at h
    · cases h
    · rename_i s1 z hd
      obtain ⟨h0, h1, _⟩ := draw_open_some K fuel st s1 z hd
      cases h
      exact ⟨z, h0, h1, rfl⟩
  · intro hf h1 h2
    have h2' : st ≤ 2147483646 := by norm_num at h2; exact h2
    rw [expon_of_range log fuel x st hf h1 h2', hyper_of_range sqrt log fuel x cov st hf h1 h2',
      pareto_of_range pow fuel a k st hf h1 h2']
    exact ⟨rfl, rfl, rfl⟩

theorem C22_transforms_reject_zero_and_one_witness :
    ∃ z : ℚ, z ≠ 0 ∧ z ≠ 1 ∧ (-2 * (16807 / 2147483647 - 1) : ℚ) = -2 * (z - 1) :=
  (C22_transforms_reject_zero_and_one (fun z : ℚ => z) (fun z : ℚ => z - 1) (fun b _ : ℚ => b)
    1 2 3 1 1 1 16807 (-2 * (16807 / 2147483647 - 1))).1 (by decide!)

/-- C23: for every `alpha > 0`, `k > 0` and every accepted uniform draw `z` with
`0 < z < 1`, the value `pareto(alpha, k)` returns is `k / z^(1/alpha)` (over
the reals) and is at least `k`: when the rejection loop accepts `z`, `pareto`
returns `k / z^(1/alpha)` with the generator state of that draw; every value
`pareto` returns is `k / z1^(1/alpha)` for the draw `z1` its loop accepted; and
from every generator state in `[1, 2^31 - 2]` `pareto` returns
`k / z1^(1/alpha)` for the first draw `z1`, which lies in `(0, 1)`, a value at
least `k`. -/
theorem C23_pareto_at_least_k (alpha k z : ℝ) (fuel : Nat) (st : Int) (ha : 0 < alpha)
    (hk : 0 < k) (hz0 : 0 < z) (hz1 : z < 1) :
    pareto_rv (fun b e : ℝ => b ^ e) alpha k z = k / z ^ (1 / alpha) ∧
      k ≤ k / z ^ (1 / alpha) ∧
      (∀ st1, draw_open ℝ fuel st = some (st1, z) →
        pareto (fun b e : ℝ => b ^ e) fuel alpha k st = some (st1, k / z ^ (1 / alpha))) ∧
      (∀ st1 v, pareto (fun b e : ℝ => b ^ e) fuel alpha k st = some (st1, v) →
        ∃ z1, draw_open ℝ fuel st = some (st1, z1) ∧ z1 ≠ 0 ∧ z1 ≠ 1 ∧
          v = k / z1 ^ (1 / alpha) ∧ (0 < z1 → z1 < 1 → k ≤ v)) ∧
      (1 ≤ fuel → 1 ≤ st → st ≤ 2 ^ 31 - 2 →
        0 < (rand_val ℝ 0 st).2 ∧ (rand_val ℝ 0 st).2 < 1 ∧
        pareto (fun b e : ℝ => b ^ e) fuel alpha k st =
          some ((rand_val ℝ 0 st).1, k / (rand_val ℝ 0 st).2 ^ (1 / alpha)) ∧
        k ≤ k / (rand_val ℝ 0 st).2 ^ (1 / alpha)) := by
  have hrv : ∀ y : ℝ, pareto_rv (fun b e : ℝ => b ^ e) alpha k y = k / y ^ (1 / alpha) := by
    intro y
    simp only [pareto_rv]
    norm_num
  refine ⟨hrv z, ?_, ?_, ?_, ?_⟩
  · rw [← hrv z]
    exact pareto_rv_ge alpha k z ha hk hz0 hz1
  · intro st1 hd
    simp only [pareto, hd, hrv]
  · intro st1 v h
    unfold pareto at h
    split at h
    · cases h
    · rename_i s1 z1 hd
      obtain ⟨h0, h1, _⟩ := draw_open_some ℝ fuel st s1 z1 hd
      cases h
      refine ⟨z1, hd, h0, h1, hrv z1, ?_⟩
      intro p0 p1
      exact pareto_rv_ge alpha k z1 ha hk p0 p1
  · intro hf h1 h2
    have h2' : st ≤ 2147483646 := by norm_num at h2; exact h2
    obtain ⟨za, zb⟩ := rand_val_value_open ℝ st h1 h2'
    refine ⟨za, zb, ?_, ?_⟩
    · rw [pareto_of_range _ fuel alpha k st hf h1 h2', hrv]
    · rw [← hrv]
      exact pareto_rv_ge alpha k _ ha hk za zb

/-- For `alpha = 3/2`, `k = 1` and the generator state 1: the call returns the
state 16807 and the value `1 / z^(1/(3/2))` for the draw `z` of that state,
which is at least 1; and `1 / (1/2)^(1/(3/2))` is at least 1. -/
theorem C23_pareto_at_least_k_witness :
    (0 : ℝ) < 3 / 2 ∧ (0 : ℝ) < 1 ∧ (0 : ℝ) < 1 / 2 ∧ (1 : ℝ) / 2 < 1 ∧
      (1 : ℝ) ≤ 1 / (1 / 2 : ℝ) ^ (1 / (3 / 2 : ℝ)) ∧
      pareto (fun b e : ℝ => b ^ e) 1 (3 / 2) 1 1 =
        some ((rand_val ℝ 0 1).1, 1 / (rand_val ℝ 0 1).2 ^ (1 / (3 / 2 : ℝ))) ∧
      (1 : ℝ) ≤ 1 / (rand_val ℝ 0 1).2 ^ (1 / (3 / 2 : ℝ)) :=
  ⟨by norm_num, by norm_num, by norm_num, by norm_num,
    (C23_pareto_at_least_k (3 / 2) 1 (1 / 2) 1 1 (by norm_num) (by norm_num) (by norm_num)
      (by norm_num)).2.1,
    ((C23_pareto_at_least_k (3 / 2) 1 (1 / 2) 1 1 (by norm_num) (by norm_num) (by norm_num)
      (by norm_num)).2.2.2.2 le_rfl le_rfl (by norm_num)).2.2.1,
    ((C23_pareto_at_least_k (3 / 2) 1 (1 / 2) 1 1 (by norm_num) (by norm_num) (by norm_num)
      (by norm_num)).2.2.2.2 le_rfl le_rfl (by norm_num)).2.2.2⟩

/-- C25: for every `min < max` and every seed `s` with `1 ≤ s ≤ 2^31 - 2`, the
values returned by `unifc(min, max)` are `z * (max - min) + min` for the
successive uniform draws `z`, and each lies strictly between `min` and `max`;
with seed 1, `min = 1.0`, `max = 2.0` the first value is
`1 + 16807/2147483647`, written with six decimals as 1.000008. -/
theorem C25_unifc_between_min_and_max (K : Type) [LinearOrderedField K] (min max : K)
    (s x0 : Int) (n : Nat) (hmm : min < max) (h1 : 1 ≤ s) (h2 : s ≤ 2 ^ 31 - 2) :
    unifc_samples K min max n (rand_valc K s x0).1 =
      (draws K n (rand_val K s x0).1).2.map (fun z => z * (max - min) + min) ∧
    (∀ v ∈ unifc_samples K min max n (rand_valc K s x0).1, min < v ∧ v < max) ∧
    (unifc ℚ 1.0 2.0 (rand_valc ℚ 1 x0).1).2 = 1 + 16807 / 2147483647 ∧
    round6 (unifc ℚ 1.0 2.0 (rand_valc ℚ 1 x0).1).2 = 1.000008 := by
  have h2' : s ≤ 2147483646 := by norm_num at h2; exact h2
  have hs := unifc_samples_eq K min max n (rand_valc K s x0).1
  rw [rand_valc_eq] at hs ⊢
  refine ⟨hs, ?_, ?_, ?_⟩
  · intro v hv
    rw [hs, List.mem_map] at hv
    obtain ⟨z, hz, rfl⟩ := hv
    rw [rand_val_seed_pos K s x0 (by omega)] at hz
    obtain ⟨z0, z1⟩ := draws_values_open K n s h1 h2' z hz
    have hd : 0 < max - min := sub_pos.mpr hmm
    constructor
    · nlinarith
    · nlinarith
  · rw [rand_valc_eq, rand_val_seed_pos ℚ 1 x0 (by norm_num)]
    decide!
  · rw [rand_valc_eq, rand_val_seed_pos ℚ 1 x0 (by norm_num)]
    decide!

theorem C25_unifc_between_min_and_max_witness :
    (1 : ℚ) < 2 ∧ (1 : Int) ≤ 1 ∧ (1 : Int) ≤ 2 ^ 31 - 2 ∧
      (∀ v ∈ unifc_samples ℚ 1 2 5 (rand_valc ℚ 1 0).1, 1 < v ∧ v < 2) :=
  ⟨by decide!, by decide, by decide,
    (C25_unifc_between_min_and_max ℚ 1 2 1 0 5 (by decide!) (by decide) (by decide)).2.1⟩

/-- C26, the code at seed 1, 2 stages, rate 1.0: the first Erlang value is
`-log(16807/m) - log(282475249/m)` over the reals, which lies between 13 and 14
and so is not written as 1.378647. -/
theorem C26_first_erlang_value_is_near_13_8 (fuel : Nat) (x0 : Int) (hf : 1 ≤ fuel) :
    ∃ v : ℝ, generl_value Real.log fuel 2 1.0 (rand_val ℝ 1 x0).1 = some (282475249, v) ∧
      v = -Real.log (16807 / 2147483647) - Real.log (282475249 / 2147483647) ∧
      13 < v ∧ v < 14 ∧ ¬ (|v - 1.378647| ≤ 0.0000005) := by
  obtain ⟨r1, r2⟩ := rand_val_first_two
  obtain ⟨b1, b2⟩ := first_erlang_bounds
  refine ⟨_, ?_, rfl, b1, b2, ?_⟩
  · rw [rand_val_seed_pos ℝ 1 x0 (by norm_num)]
    simp only [generl_value, erlang_sum]
    rw [expon_of_range Real.log fuel _ 1 hf (by norm_num) (by norm_num), r1]
    simp only
    rw [expon_of_range Real.log fuel _ 16807 hf (by norm_num) (by norm_num), r2]
    simp only
    norm_num
    ring
  · intro h
    rw [abs_le] at h
    have := h.2
    norm_num at this
    linarith

theorem C26_first_erlang_value_is_near_13_8_witness :
    1 ≤ 1 ∧ ∃ v : ℝ, generl_value Real.log 1 2 1.0 (rand_val ℝ 1 0).1 = some (282475249, v) ∧
      v = -Real.log (16807 / 2147483647) - Real.log (282475249 / 2147483647) ∧
      13 < v ∧ v < 14 ∧ ¬ (|v - 1.378647| ≤ 0.0000005) :=
  ⟨by decide, C26_first_erlang_value_is_near_13_8 1 0 (by decide)⟩


/-! ## The uniform source: degenerate states and word size -/

/-- C27: for every state `x` with `0 ≤ x ≤ 2^31 - 1`, the values computed by one
`rand_val(0)` step, `a*(x mod q)`, `r*(x div q)`, their difference `x_new` and
the stored value (`x_new`, or `x_new + m` when `x_new ≤ 0`), lie in the signed
32-bit range `[-2^31, 2^31 - 1]`, and the step computed with a 32-bit `long`
gives the result of the step computed without reduction. -/
theorem C27_no_overflow_in_32_bits (K : Type) [LinearOrderedField K] (x : Int)
    (h0 : 0 ≤ x) (h1 : x ≤ 2 ^ 31 - 1) :
    (∀ v ∈ rand_val_intermediates x, -2 ^ 31 ≤ v ∧ v ≤ 2 ^ 31 - 1) ∧
      rand_val_long32 K 0 x = rand_val K 0 x := by
  have h1' : x ≤ 2147483647 := by norm_num at h1; exact h1
  have e1 : Int.tdiv x 127773 = x / 127773 := Int.tdiv_eq_ediv h0 (by norm_num)
  have e2 : Int.tmod x 127773 = x % 127773 := Int.tmod_eq_emod h0 (by norm_num)
  constructor
  · intro v hv
    simp only [rand_val_intermediates, e1, e2, List.mem_cons, List.mem_singleton,
      List.mem_nil_iff, or_false] at hv
    norm_num
    rcases hv with rfl | rfl | rfl | rfl
    · constructor <;> omega
    · constructor <;> omega
    · constructor <;> omega
    · split_ifs <;> constructor <;> omega
  · have w1 : wrap32 (x / 127773) = x / 127773 := wrap32_of_range _ (by omega) (by omega)
    have w2 : wrap32 (x % 127773) = x % 127773 := wrap32_of_range _ (by omega) (by omega)
    have w3 : wrap32 (16807 * (x % 127773)) = 16807 * (x % 127773) :=
      wrap32_of_range _ (by omega) (by omega)
    have w4 : wrap32 (2836 * (x / 127773)) = 2836 * (x / 127773) :=
      wrap32_of_range _ (by omega) (by omega)
    have w5 : wrap32 (16807 * (x % 127773) - 2836 * (x / 127773)) =
        16807 * (x % 127773) - 2836 * (x / 127773) :=
      wrap32_of_range _ (by omega) (by omega)
    have w6 : ¬ (16807 * (x % 127773) - 2836 * (x / 127773) > 0) →
        wrap32 (16807 * (x % 127773) - 2836 * (x / 127773) + 2147483647) =
          16807 * (x % 127773) - 2836 * (x / 127773) + 2147483647 :=
      fun h => wrap32_of_range _ (by omega) (by omega)
    simp only [rand_val_long32, rand_val, lt_irrefl, if_false, e1, e2, w1, w2, w3, w4, w5]
    split_ifs with h
    · rfl
    · rw [w6 h]

theorem C27_no_overflow_in_32_bits_witness :
    (0 : Int) ≤ 2147483647 ∧ (2147483647 : Int) ≤ 2 ^ 31 - 1 ∧
      (∀ v ∈ rand_val_intermediates 2147483647, -2 ^ 31 ≤ v ∧ v ≤ 2 ^ 31 - 1) ∧
      rand_val_long32 ℚ 0 2147483647 = rand_val ℚ 0 2147483647 :=
  ⟨by decide, by decide, C27_no_overflow_in_32_bits ℚ 2147483647 (by decide) (by decide)⟩

/-- C28: if the generator is never seeded (static state `x = 0`) or is seeded
with `s = 2^31 - 1`, then after every draw the state equals `m = 2^31 - 1` and
every value returned by `rand_val(0)` is exactly 1; the rejection loop
`do z = rand_val(0); while (z == 0 || z == 1)` does not end within any number
of iterations, so `expon` never returns from such a state. -/
theorem C28_degenerate_states_stay_at_m (K : Type) [LinearOrderedField K] (log : K → K)
    (n fuel : Nat) (x0 : Int) (mean : K) :
    draws K (n + 1) 0 = (2 ^ 31 - 1, List.replicate (n + 1) 1) ∧
      draws K (n + 1) (rand_val K (2 ^ 31 - 1) x0).1 = (2 ^ 31 - 1, List.replicate (n + 1) 1) ∧
      draw_open K fuel 0 = none ∧
      draw_open K fuel (rand_val K (2 ^ 31 - 1) x0).1 = none ∧
      expon log fuel mean 0 = none ∧
      expon log fuel mean (rand_val K (2 ^ 31 - 1) x0).1 = none := by
  have e : ((2 : Int) ^ 31 - 1) = 2147483647 := by norm_num
  rw [e, rand_val_seed_pos K 2147483647 x0 (by norm_num)]
  refine ⟨draws_from_zero K n, draws_from_m K (n + 1), draw_open_from_zero K fuel,
    draw_open_from_m K fuel, ?_, ?_⟩
  · simp only [expon, draw_open_from_zero]
  · simp only [expon, draw_open_from_m]


/-! ## The unique-integer generator: state map and shuffle indices -/

/-- C29: the step of `Generator31` maps the states `1, ..., 2^31 - 1` into
themselves (the result is not 0 and has bit 31 clear) and is injective on
them. -/
theorem C29_generator31_maps_states_injectively (n : Nat) (h1 : 1 ≤ n) (h2 : n ≤ 2 ^ 31 - 1) :
    (Generator31 n).1 = n >>> 1 ||| ((n ^^^ n >>> 3) &&& 1) <<< 30 ∧
      1 ≤ (Generator31 n).1 ∧ (Generator31 n).1 ≤ 2 ^ 31 - 1 ∧
      (Generator31 n).1.testBit 31 = false ∧
      ∀ b : Nat, 1 ≤ b → b ≤ 2 ^ 31 - 1 → (Generator31 n).1 = (Generator31 b).1 → n = b := by
  have hn : n < 2 ^ 31 := by omega
  have hlt := Generator31_lt n hn
  have hne := Generator31_ne_zero n h1 hn
  refine ⟨rfl, by omega, by omega, Nat.testBit_lt_two_pow hlt, ?_⟩
  intro b _ hb h
  exact Generator31_injective n b hn (by omega) h

theorem C29_generator31_maps_states_injectively_witness :
    1 ≤ 9 ∧ 9 ≤ 2 ^ 31 - 1 ∧ 1 ≤ (Generator31 9).1 ∧ (Generator31 9).1 ≤ 2 ^ 31 - 1 :=
  ⟨by decide, by decide,
    (C29_generator31_maps_states_injectively 9 (by decide) (by decide)).2.1,
    (C29_generator31_maps_states_injectively 9 (by decide) (by decide)).2.2.1⟩

/-- C30: unlike `rand_val`, the seeding call `randInt(s)` with
`1 ≤ s ≤ 2^31 - 2` sets the state to `s` and advances it once, returning
`(16807*s) mod (2^31-1)`; hence shuffle iteration `i` of an array of `num ≥ 1`
values starts after `i` further calls and exchanges `z[i]` with `z[j_i]` for
`j_i = (16807^(i+2) * s mod (2^31-1)) mod num`, and `0 ≤ j_i < num`. -/
theorem C30_randInt_seed_advances_and_indices (s x0 : Int) (i : Nat) (z : List Int)
    (h1 : 1 ≤ s) (h2 : s ≤ 2 ^ 31 - 2) (hnum : 1 ≤ z.length) :
    rand_val ℚ s x0 = (s, 0) ∧
    randInt s x0 = ((16807 * s) % (2 ^ 31 - 1), (16807 * s) % (2 ^ 31 - 1)) ∧
    genuniq_shuffle_index z.length (randInt_run i (randInt s x0).1) =
      ((16807 ^ (i + 2) * s) % (2 ^ 31 - 1)) % (z.length : Int) ∧
    0 ≤ ((16807 ^ (i + 2) * s) % (2 ^ 31 - 1)) % (z.length : Int) ∧
    ((16807 ^ (i + 2) * s) % (2 ^ 31 - 1)) % (z.length : Int) < (z.length : Int) ∧
    ∃ zi, genuniq_shuffle i 0 z (randInt s x0).1 = some (zi, randInt_run i (randInt s x0).1) ∧
      genuniq_shuffle (i + 1) 0 z (randInt s x0).1 =
        some (shuffle_swap zi i
            (((16807 ^ (i + 2) * s) % (2 ^ 31 - 1)) % (z.length : Int)).toNat,
          randInt_run (i + 1) (randInt s x0).1) := by
  have h2' : s ≤ 2147483646 := by norm_num at h2; exact h2
  have e : ((2 : Int) ^ 31 - 1) = 2147483647 := by norm_num
  have hidx := shuffle_index_closed_form s x0 i z.length h1 h2' hnum
  obtain ⟨ra, rb⟩ := randInt_range s x0 (Or.inl ⟨by omega, by omega⟩)
  obtain ⟨zi, e1, _, e3⟩ := genuniq_shuffle_last i 0 z (randInt s x0).1 hnum ra rb
  have hpos : (0 : Int) < (z.length : Int) := by exact_mod_cast hnum
  rw [e]
  refine ⟨rand_val_seed_pos ℚ s x0 (by omega), randInt_seed s x0 h1 h2', hidx,
    Int.emod_nonneg _ (by omega), Int.emod_lt_of_pos _ hpos, zi, e1, ?_⟩
  rw [e3, hidx, Nat.zero_add]

theorem C30_randInt_seed_advances_and_indices_witness :
    (1 : Int) ≤ 1 ∧ (1 : Int) ≤ 2 ^ 31 - 2 ∧ 1 ≤ ([10, 20, 30] : List Int).length ∧
    rand_val ℚ 1 0 = (1, 0) ∧
    randInt 1 0 = ((16807 * 1) % (2 ^ 31 - 1), (16807 * 1) % (2 ^ 31 - 1)) ∧
    genuniq_shuffle_index ([10, 20, 30] : List Int).length (randInt_run 0 (randInt 1 0).1) =
      ((16807 ^ (0 + 2) * 1) % (2 ^ 31 - 1)) % (([10, 20, 30] : List Int).length : Int) :=
  ⟨by decide, by decide, by decide,
    (C30_randInt_seed_advances_and_indices 1 0 0 [10, 20, 30] (by decide) (by decide)
      (by decide)).1,
    (C30_randInt_seed_advances_and_indices 1 0 0 [10, 20, 30] (by decide) (by decide)
      (by decide)).2.1,
    (C30_randInt_seed_advances_and_indices 1 0 0 [10, 20, 30] (by decide) (by decide)
      (by decide)).2.2.1⟩


end RandomDistribution
